import Mathlib

/-!
# Retention clean-up tools: `delete-ami-parallel` and `delete-unused-volumes-parallel`

A shallow embedding of the two Go programs of the repository and the properties
proved about them.

* `GoLib` models the pieces of the Go standard library the programs call:
  `strings.Split` with a one byte separator, `time.Parse` with the layout
  `"2006-01-02 15:04:05"`, `Time.Unix` and 64 bit integer subtraction.
* `DeleteAmi` embeds `src/delete-ami-parallel/main.go`.
* `DeleteVolumes` embeds `src/delete-unused-volumes-parallel/main.go`.
* `Pool` is the interleaving semantics of the goroutines both `main` functions
  start: the driver, the goroutines that send one job each, and the workers,
  which go through the events the program's `WorkerPool` produces for the job
  they received.
-/

namespace GoLib

/-- Wrap an integer to the range of a Go `int64` (two's complement). -/
def wrap64 (x : Int) : Int := (x + 2 ^ 63) % 2 ^ 64 - 2 ^ 63

/-- The value fits a Go `int64`. -/
def In64 (x : Int) : Prop := -(2 ^ 63) ≤ x ∧ x < 2 ^ 63

instance (x : Int) : Decidable (In64 x) := by unfold In64; exact inferInstance

/-- Go `a - b` on `int64` operands. -/
def sub64 (a b : Int) : Int := wrap64 (a - b)

/-- The pieces of `cs` between the occurrences of `sep`: `strings.Split` on the
characters of a string, for a separator that is one ASCII character.  The result
always has at least one piece. -/
def splitChars (sep : Char) : List Char → List (List Char)
  | [] => [[]]
  | c :: cs =>
    if c = sep then [] :: splitChars sep cs
    else
      match splitChars sep cs with
      | [] => [[c]]
      | piece :: pieces => (c :: piece) :: pieces

/-- Go `strings.Split(s, sep)` for a separator of one character. -/
def Split (s : String) (sep : Char) : List String :=
  (splitChars sep s.toList).map String.mk

/-- Go `time.isDigit` at the head of the remaining input. -/
def isDigit (c : Char) : Bool := decide (48 ≤ c.toNat ∧ c.toNat ≤ 57)

/-- The value of a decimal digit character. -/
def digitVal (c : Char) : Nat := c.toNat - 48

/-- Go `time.getnum(s, fixed)`: a one or two digit number at the head of `s`;
with `fixed` two digits are required.  `none` is `errBad`. -/
def getnum : List Char → Bool → Option (Nat × List Char)
  | [], _ => none
  | [a], fixed =>
    if isDigit a then (if fixed then none else some (digitVal a, [])) else none
  | a :: b :: rest, fixed =>
    if isDigit a then
      if isDigit b then some (digitVal a * 10 + digitVal b, rest)
      else if fixed then none else some (digitVal a, b :: rest)
    else none

/-- The `stdLongYear` case of `time.Parse`: exactly four characters are taken
and all of them must be digits. -/
def getyear : List Char → Option (Nat × List Char)
  | a :: b :: c :: d :: rest =>
    if isDigit a && isDigit b && isDigit c && isDigit d then
      some (digitVal a * 1000 + digitVal b * 100 + digitVal c * 10 + digitVal d, rest)
    else none
  | _ => none

/-- Go `time.skip(value, prefix)` for a layout prefix that is one literal
character other than a blank: the value must start with it. -/
def skipLit (lit : Char) : List Char → Option (List Char)
  | c :: rest => if c = lit then some rest else none
  | [] => none

/-- Go `time.skip(value, " ")`: a value that is not empty must start with a
blank, and all the blanks at its head are cut (`cutspace`). -/
def skipSpace : List Char → Option (List Char)
  | [] => some []
  | c :: rest => if c = ' ' then some ((c :: rest).dropWhile (fun x => x == ' ')) else none

/-- Go `time.isLeap`. -/
def isLeap (year : Nat) : Bool :=
  year % 4 == 0 && (year % 100 != 0 || year % 400 == 0)

/-- Go `time.daysIn(month, year)`. -/
def daysIn (month year : Nat) : Nat :=
  if month == 2 then (if isLeap year then 29 else 28)
  else if month == 4 || month == 6 || month == 9 || month == 11 then 30
  else 31

/-- Days from the first of January to the first of `month` in a common year
(the table `daysBefore` of package `time`). -/
def daysBefore (month : Nat) : Nat :=
  match month with
  | 1 => 0 | 2 => 31 | 3 => 59 | 4 => 90 | 5 => 120 | 6 => 151
  | 7 => 181 | 8 => 212 | 9 => 243 | 10 => 273 | 11 => 304 | _ => 334

/-- Days from 0000-01-01 to the first of January of `year` in the proleptic
Gregorian calendar: 365 a year plus one for every leap year before `year`. -/
def daysSinceYearZero (year : Nat) : Nat :=
  year * 365 + (year + 3) / 4 - (year + 99) / 100 + (year + 399) / 400

/-- A Go `time.Time`, kept as what `Unix()` returns: the seconds since
1970-01-01 00:00:00 UTC.  The programs read a `Time` through `Unix()` only. -/
structure Time where
  sec : Int
deriving DecidableEq, Repr

/-- Go `Time.Unix()`. -/
def Time.Unix (t : Time) : Int := t.sec

/-- The zero `Time{}`: 0001-01-01 00:00:00 UTC. -/
def Time.zero : Time := ⟨-62135596800⟩

/-- Go `time.Date(year, month, day, hour, min, sec, 0, time.UTC)` for fields
already validated by `time.Parse`. -/
def Date (year month day hour min sec : Nat) : Time :=
  let days : Nat :=
    daysSinceYearZero year + daysBefore month
      + (if isLeap year && decide (3 ≤ month) then 1 else 0) + (day - 1)
  ⟨((days : Int) - 719528) * 86400 + (hour * 3600 + min * 60 + sec : Nat)⟩

/-- The days of a year of the Gregorian calendar. -/
def daysInYear (year : Nat) : Nat := if isLeap year then 366 else 365

/-- The days from 0000-01-01 to the first of January of `year`, counted year by
year. -/
def daysBeforeYear : Nat → Nat
  | 0 => 0
  | year + 1 => daysBeforeYear year + daysInYear year

/-- The days from the first of January of `year` to the first of `month`,
counted month by month. -/
def daysBeforeMonth (year : Nat) : Nat → Nat
  | 0 => 0
  | 1 => 0
  | month + 1 => daysBeforeMonth year month + daysIn month year

/-- The Unix time of an instant of the proleptic Gregorian calendar in UTC: the
days from 1970-01-01 to its day, counted year by year and month by month, at
86400 seconds each, plus the seconds into the day.  It does not use the closed
formulas of `Date`. -/
def unixSeconds (year month day hour min sec : Nat) : Int :=
  (((daysBeforeYear year + daysBeforeMonth year month + (day - 1) : Nat) : Int)
      - (daysBeforeYear 1970 : Nat)) * 86400
    + ((hour * 3600 + min * 60 + sec : Nat) : Int)

/-- The digits of a fractional second that `time.Parse` accepts right after the
seconds although the layout has none: a period or a comma followed by at least
one digit; the digits are consumed (they only set nanoseconds). -/
def skipFraction : List Char → List Char
  | sepc :: d :: rest =>
    if (sepc = '.' ∨ sepc = ',') ∧ isDigit d then rest.dropWhile isDigit
    else sepc :: d :: rest
  | value => value

/-- The parse fails when `bad` holds: a field out of range, text left over. -/
def rangeCheck (bad : Bool) : Option Unit := if bad then none else some ()

/-- The date part of `time.Parse("2006-01-02 15:04:05", value)`: a year of four
digits, a month of two digits in 1..12 and a day of two digits, with the
literal hyphens between them.  The day is checked against the month once all
fields are read. -/
def parseDate (value : List Char) : Option ((Nat × Nat × Nat) × List Char) := do
  let (year, v) ← getyear value
  let v ← skipLit '-' v
  let (month, v) ← getnum v true
  rangeCheck (decide (month = 0 ∨ 12 < month))
  let v ← skipLit '-' v
  let (day, v) ← getnum v true
  some ((year, month, day), v)

/-- The clock part of `time.Parse("2006-01-02 15:04:05", value)`: an hour of one
or two digits in 0..23, a minute and a second of two digits in 0..59, with the
literal colons between them, then an optional fraction of a second. -/
def parseClock (value : List Char) : Option ((Nat × Nat × Nat) × List Char) := do
  let (hour, v) ← getnum value false
  rangeCheck (decide (24 ≤ hour))
  let v ← skipLit ':' v
  let (min, v) ← getnum v true
  rangeCheck (decide (60 ≤ min))
  let v ← skipLit ':' v
  let (sec, v) ← getnum v true
  rangeCheck (decide (60 ≤ sec))
  some ((hour, min, sec), skipFraction v)

/-- The fields `time.Parse("2006-01-02 15:04:05", value)` reads, in the order of
the layout, with the range checks of the standard library: the date, blanks,
the clock, nothing left over, and the day checked against the month at the end.
`none` is a parse error.  The library works on bytes and this function on
characters; a value with a character outside ASCII is a parse error for both,
since every byte consumed has to be a digit, one of the literals or part of the
fraction. -/
def parseFields (value : List Char) : Option Time := do
  let ((year, month, day), v) ← parseDate value
  let v ← skipSpace v
  let ((hour, min, sec), v) ← parseClock v
  rangeCheck (decide (v ≠ []))
  rangeCheck (decide (day < 1 ∨ daysIn month year < day))
  some (Date year month day hour min sec)

/-- Go `time.Parse("2006-01-02 15:04:05", value)`: the parsed time and no error,
or the zero `Time{}` and an error. -/
def Parse (value : String) : Time × Option String :=
  match parseFields value.toList with
  | some tm => (tm, none)
  | none => (Time.zero, some ("parsing time " ++ value))

end GoLib

namespace Pool

/-- What one pass of the driver's `for ... range` loop does with the resource it
looks at: nothing, start a goroutine that sends the id on `jobs` and wait for
one result, or panic. -/
inductive Decision where
  | skip
  | submit (id : String)
  | panic
deriving DecidableEq, Repr

/-- The id a decision submits, if any. -/
def Decision.id? : Decision → Option String
  | .submit id => some id
  | _ => none

/-- The ids submitted by a list of decisions, in order. -/
def ids (ds : List Decision) : List String := ds.filterMap Decision.id?

/-- What a worker, or the goroutine inside `DeregisterAmi` / `DeleteUnusedVolumes`,
does that can be observed. -/
inductive Event where
  | print (msg : String)
  | call (id : String) (DryRun : Bool)
  | result (id : String)
deriving DecidableEq, Repr

/-- The id of a delete request. -/
def Event.call? : Event → Option (String × Bool)
  | .call id d => some (id, d)
  | _ => none

/-- The id of a published result. -/
def Event.result? : Event → Option String
  | .result id => some id
  | _ => none

/-- The event is a line printed or logged. -/
def Event.isPrint : Event → Bool
  | .print _ => true
  | _ => false

/-- The delete requests and published results among `es`, in order. -/
def withoutPrints (es : List Event) : List Event := es.filter (fun e => !e.isPrint)

end Pool

namespace DeleteAmi
open GoLib Pool

/-- The `YAMLConfig` of `delete-ami-parallel`, with the fields the embedded code
reads. -/
structure YAMLConfig where
  Exclude_ami : List String
  No_of_executer : Int
  Duration : Int
  Dryrun : Bool
deriving Repr

/-- An `ec2.Image` as `main` reads it: `ImageId` and `CreationDate` are
dereferenced without a check, `Name` is tested against `nil`. -/
structure Image where
  ImageId : String
  CreationDate : String
  Name : Option String
deriving Repr

/-- `AmiCheck`: true when the ami id is in the exclusion list. -/
def AmiCheck (AmiID : String) (yamlconfig : YAMLConfig) : Bool :=
  go yamlconfig.Exclude_ami
where
  /-- The `for _, b := range yamlconfig.Exclude_ami` loop. -/
  go : List String → Bool
    | [] => false
    | b :: rest => if b == AmiID then true else go rest

/-- `DeregisterAmi`: build the request with `ImageId` and `DryRun`, call the
service, print the error if there is one.  `svc` gives the error the service
answers with, `none` for success. -/
def DeregisterAmi (amiID : String) (svc : String → Bool → Option String) (DryRun : Bool) :
    List Event :=
  match svc amiID DryRun with
  | some err => [Event.call amiID DryRun, Event.print err]
  | none => [Event.call amiID DryRun]

/-- `WorkerPool` run on the jobs `jobs` it receives before the channel is closed.
`svc k` is the service's answer to the `k`-th request of this worker. -/
def WorkerPool (id : Int) (jobs : List String) (svc : Nat → String → Bool → Option String)
    (DryRun : Bool) : List Event :=
  match jobs with
  | [] => []
  | j :: rest =>
    [Event.print ("Goroutine id. " ++ toString id ++ " deregistering ami id. " ++ j)]
      ++ DeregisterAmi j (svc 0) DryRun
      ++ [Event.result j]
      ++ WorkerPool id rest (fun k => svc (k + 1)) DryRun

/-- The three lines of `main` that turn `*image.CreationDate` into Unix seconds:
the text before the first period is split at `T`, pieces 0 and 1 are joined by a
blank and parsed, the parse error is dropped.  `none` is the index out of range
panic of `[1]` when there is no `T`. -/
def AMICreationDate (CreationDate : String) : Option Int :=
  match (Split CreationDate '.').get? 0 with
  | none => none
  | some head =>
    match (Split head 'T').get? 0, (Split head 'T').get? 1 with
    | some day, some clock =>
      let Date := day ++ " " ++ clock
      let datetime := (Parse Date).1
      some datetime.Unix
    | _, _ => none

/-- The character of the decimal digit `d`. -/
def digitChar (d : Nat) : Char := Char.ofNat (48 + d)

/-- The last two decimal digits of `n`. -/
def digits2 (n : Nat) : List Char := [digitChar (n / 10 % 10), digitChar (n % 10)]

/-- The last four decimal digits of `n`. -/
def digits4 (n : Nat) : List Char :=
  [digitChar (n / 1000 % 10), digitChar (n / 100 % 10), digitChar (n / 10 % 10),
   digitChar (n % 10)]

/-- The characters `YYYY-MM-DD` of a date. -/
def dateChars (year month day : Nat) : List Char :=
  digits4 year ++ ('-' :: (digits2 month ++ ('-' :: digits2 day)))

/-- The characters `HH:MM:SS` of a time of day. -/
def clockChars (hour min sec : Nat) : List Char :=
  digits2 hour ++ (':' :: (digits2 min ++ (':' :: digits2 sec)))

/-- The text EC2 gives as `CreationDate` for an instant, `YYYY-MM-DDTHH:MM:SS`
followed by a period and `frac`, as in `2016-05-03T12:34:56.000Z`. -/
def awsTimestamp (year month day hour min sec : Nat) (frac : List Char) : String :=
  String.mk ((dateChars year month day ++ ('T' :: clockChars hour min sec)) ++ ('.' :: frac))

/-- The body of `for _, image := range resp.Images` in `main`. -/
def loopBody (yamlconfig : YAMLConfig) (t : Int) (image : Image) : Decision :=
  let delta := yamlconfig.Duration
  let status := AmiCheck image.ImageId yamlconfig
  if status then Decision.skip
  else
    match AMICreationDate image.CreationDate with
    | none => Decision.panic
    | some AMICreationDate =>
      if sub64 t AMICreationDate > delta then
        match image.Name with
        | none => Decision.submit image.ImageId
        | some _ => Decision.submit image.ImageId
      else Decision.skip

end DeleteAmi

namespace DeleteVolumes
open GoLib Pool

/-- The `YAMLConfig` of `delete-unused-volumes-parallel`, with the fields the
embedded code reads. -/
structure YAMLConfig where
  NoOfExecuter : Int
  Duration : Int
  Dryrun : Bool
deriving Repr

/-- An `ec2.Volume` as `main` reads it. -/
structure Volume where
  VolumeId : String
  CreateTime : Time
  State : String
  AvailabilityZone : String
deriving Repr

/-- `DeleteUnusedVolumes`: build the request with `VolumeId` and `DryRun`, call
the service, log the error if there is one. -/
def DeleteUnusedVolumes (volumeID : String) (svc : String → Bool → Option String)
    (DryRun : Bool) : List Event :=
  match svc volumeID DryRun with
  | some err => [Event.call volumeID DryRun, Event.print err]
  | none => [Event.call volumeID DryRun]

/-- `WorkerPool` run on the jobs `jobs` it receives. `svc k` is the service's
answer to the `k`-th request of this worker. -/
def WorkerPool (id : Int) (jobs : List String) (svc : Nat → String → Bool → Option String)
    (DryRun : Bool) : List Event :=
  match jobs with
  | [] => []
  | j :: rest =>
    [Event.print ("Goroutine id " ++ toString id ++ " removing snapshot id. " ++ j)]
      ++ DeleteUnusedVolumes j (svc 0) DryRun
      ++ [Event.result j]
      ++ WorkerPool id rest (fun k => svc (k + 1)) DryRun

/-- The body of `for _, volume := range resp.Volumes` in `main`. -/
def loopBody (yamlconfig : YAMLConfig) (t : Int) (volume : Volume) : Decision :=
  let delta := yamlconfig.Duration
  if sub64 t volume.CreateTime.Unix > delta && volume.State == "available" then
    Decision.submit volume.VolumeId
  else Decision.skip

end DeleteVolumes


namespace Pool

/-- The part of a `main` function that runs the pool: how many workers the
`for w := 1; w <= NoOfExecuter; w++` loop starts, the `DryRun` flag handed to
them, what the loop over the listing decides for each resource, whether `main`
ends with `close(jobs)`, and the program's `WorkerPool` function, which the
worker goroutines run. -/
structure Program where
  NoOfExecuter : Int
  DryRun : Bool
  listing : List Decision
  closes : Bool
  WorkerPool : Int → List String → (Nat → String → Bool → Option String) → Bool → List Event

/-- Where a `WorkerPool` goroutine stands: `running todo` has `todo` left to do
of the pass through the loop body it is in, and with nothing left it waits in
`for j := range jobs`; `exited` has returned because `jobs` was closed. -/
inductive Worker where
  | running (todo : List Event)
  | exited
deriving DecidableEq, Repr

/-- What is left of the pass through the loop body the worker is in. -/
def Worker.todo : Worker → List Event
  | .running todo => todo
  | .exited => []

/-- The results the worker has still to publish in this pass. -/
def Worker.results (w : Worker) : List String := w.todo.filterMap Event.result?

/-- The delete requests the worker has still to make in this pass. -/
def Worker.calls (w : Worker) : List (String × Bool) := w.todo.filterMap Event.call?

/-- Where `main` stands: in the loop that starts the workers, about to start
worker `w`; at the head of the loop over the listing with `rest` still to look
at; blocked at `<-results`; after `close(jobs)`; returned; or panicked. -/
inductive Main where
  | spawn (w : Int)
  | loop (rest : List Decision)
  | recv (rest : List Decision)
  | closed
  | returned
  | panicked
deriving DecidableEq, Repr

/-- The process is still running: `main` has neither returned nor panicked. -/
def Main.alive : Main → Bool
  | .returned => false
  | .panicked => false
  | _ => true

/-- What the driver does to the pool. -/
inductive Action where
  | start (w : Int)
  | submit (id : String)
  | receive (id : String)
  | close
deriving DecidableEq, Repr

/-- The state of a run: `main`, the goroutines blocked at `jobs <- id`, the
workers in the order they were started, whether `jobs` is closed, and what has
happened so far: the ids submitted, the delete requests made with their
`DryRun` field, the results `main` has taken from `results`, and the driver's
actions on the pool. -/
structure State where
  main : Main
  senders : List String
  workers : List Worker
  jobsClosed : Bool
  submitted : List String
  deletes : List (String × Bool)
  results : List String
  actions : List Action
deriving DecidableEq, Repr

/-- The state when `jobs` and `results` have just been made. -/
def init : State :=
  { main := .spawn 1, senders := [], workers := [], jobsClosed := false,
    submitted := [], deletes := [], results := [], actions := [] }

/-- One step of one goroutine.  Both channels are unbuffered, so a send and the
matching receive are one step.  A worker that receives job `j` has the events of
`WorkerPool(id, jobs, results, svc, DryRun)` for that job to go through, `svc`
being whatever the service will answer. -/
inductive Step (P : Program) : State → State → Prop where
  /-- `go WorkerPool(w, jobs, results, svc, DryRun)` for `w <= NoOfExecuter`. -/
  | spawn (s : State) (w : Int) (hm : s.main = .spawn w) (hw : w ≤ P.NoOfExecuter) :
      Step P s { s with main := .spawn (w + 1), workers := s.workers ++ [.running []],
                        actions := s.actions ++ [.start w] }
  /-- The worker loop ends and `main` enters the loop over the listing. -/
  | spawned (s : State) (w : Int) (hm : s.main = .spawn w) (hw : ¬ w ≤ P.NoOfExecuter) :
      Step P s { s with main := .loop P.listing }
  /-- The resource is not eligible: next iteration. -/
  | skip (s : State) (rest : List Decision) (hm : s.main = .loop (.skip :: rest)) :
      Step P s { s with main := .loop rest }
  /-- Evaluating the resource panics. -/
  | panic (s : State) (rest : List Decision) (hm : s.main = .loop (.panic :: rest)) :
      Step P s { s with main := .panicked }
  /-- `go func() { jobs <- id }()`, then `main` goes on to `<-results`. -/
  | submit (s : State) (id : String) (rest : List Decision)
      (hm : s.main = .loop (.submit id :: rest)) :
      Step P s { s with main := .recv rest, senders := s.senders ++ [id],
                        submitted := s.submitted ++ [id],
                        actions := s.actions ++ [.submit id] }
  /-- A blocked `jobs <- j` meets the worker number `pre.length + 1` waiting in
  `range jobs`; the worker enters the loop body with job `j`. -/
  | take (s : State) (a b : List String) (j : String) (pre post : List Worker)
      (svc : Nat → String → Bool → Option String)
      (hm : s.main.alive = true) (hc : s.jobsClosed = false)
      (hs : s.senders = a ++ j :: b) (hw : s.workers = pre ++ .running [] :: post) :
      Step P s { s with senders := a ++ b,
                        workers := pre ++
                          .running (P.WorkerPool (pre.length + 1) [j] svc P.DryRun) :: post }
  /-- A worker prints or logs a line. -/
  | print (s : State) (msg : String) (todo : List Event) (pre post : List Worker)
      (hm : s.main.alive = true)
      (hw : s.workers = pre ++ .running (.print msg :: todo) :: post) :
      Step P s { s with workers := pre ++ .running todo :: post }
  /-- A worker makes the delete request it has built. -/
  | call (s : State) (id : String) (d : Bool) (todo : List Event) (pre post : List Worker)
      (hm : s.main.alive = true)
      (hw : s.workers = pre ++ .running (.call id d :: todo) :: post) :
      Step P s { s with workers := pre ++ .running todo :: post,
                        deletes := s.deletes ++ [(id, d)] }
  /-- A worker's `results <- j` meets `main` at `<-results`. -/
  | result (s : State) (id : String) (todo : List Event) (rest : List Decision)
      (pre post : List Worker) (hm : s.main = .recv rest)
      (hw : s.workers = pre ++ .running (.result id :: todo) :: post) :
      Step P s { s with main := .loop rest, workers := pre ++ .running todo :: post,
                        results := s.results ++ [id],
                        actions := s.actions ++ [.receive id] }
  /-- `close(jobs)` after the loop, in a program that has it. -/
  | close (s : State) (hm : s.main = .loop []) (hp : P.closes = true) :
      Step P s { s with main := .closed, jobsClosed := true,
                        actions := s.actions ++ [.close] }
  /-- `main` returns: after `close(jobs)`, or right after the loop in a program
  without it. -/
  | ret (s : State)
      (hm : s.main = .closed ∨ (s.main = .loop [] ∧ P.closes = false)) :
      Step P s { s with main := .returned }
  /-- A worker waiting in `range jobs` sees the channel closed and returns. -/
  | exit (s : State) (pre post : List Worker)
      (hm : s.main.alive = true) (hc : s.jobsClosed = true)
      (hw : s.workers = pre ++ .running [] :: post) :
      Step P s { s with workers := pre ++ .exited :: post }
  /-- A goroutine blocked at `jobs <- id` panics when `jobs` is closed. -/
  | sendClosed (s : State) (hm : s.main.alive = true) (hc : s.jobsClosed = true)
      (hs : s.senders ≠ []) :
      Step P s { s with main := .panicked }

/-- The states a run of `P` can be in. -/
inductive Reachable (P : Program) : State → Prop where
  | init : Reachable P init
  | step (s s2 : State) (hr : Reachable P s) (hs : Step P s s2) : Reachable P s2

/-- The results the workers have still to publish. -/
def pendingResults (ws : List Worker) : List String := ws.flatMap Worker.results

/-- The delete requests the workers have still to make. -/
def pendingCalls (ws : List Worker) : List (String × Bool) := ws.flatMap Worker.calls

/-- The jobs submitted whose result `main` has not taken yet: those still with
their sending goroutine and those whose result a worker has still to publish. -/
def held (s : State) : List String := s.senders ++ pendingResults s.workers

/-- The number of jobs submitted and not yet completed. -/
def outstanding (s : State) : Nat := s.submitted.length - s.results.length

/-- The number of workers inside the loop body: deletions in flight. -/
def inFlight (s : State) : Nat := (s.workers.filter (fun w => !w.todo.isEmpty)).length

/-- The number of steps a worker can still take without a new job, plus one
while it has not returned. -/
def Worker.weight : Worker → Nat
  | .running todo => todo.length + 1
  | .exited => 0

/-- The steps `main` can still take by itself, weighted. -/
def Main.weight (P : Program) : Main → Nat
  | .spawn w => 7 * P.listing.length + 4 + 2 * (P.NoOfExecuter + 1 - w).toNat
  | .loop rest => 7 * rest.length + 2
  | .recv rest => 7 * rest.length + 3
  | .closed => 1
  | .returned => 0
  | .panicked => 0

/-- A bound on the number of steps left in any run from `s`. -/
def measure (P : Program) (s : State) : Nat :=
  s.main.weight P + 5 * s.senders.length + (s.workers.map Worker.weight).sum

/-- The run of `P` can complete, and in every state of every run the delete
requests made so far carry the program's `DryRun` and an id the listing
submits; once `main` has returned the requests made are exactly one for each id
the listing submits, in order, and so are the results taken. -/
def DeletesExactlyListing (P : Program) : Prop :=
  (∃ s, Reachable P s ∧ s.main = .returned) ∧
  ∀ s, Reachable P s →
    (∀ d ∈ s.deletes, d.2 = P.DryRun ∧ d.1 ∈ ids P.listing) ∧
    (s.main = .returned →
      s.deletes = (ids P.listing).map (fun id => (id, P.DryRun)) ∧
      s.results = ids P.listing)

/-- No run of `P` deadlocks and every run ends: each step lowers `measure`, a
step is possible in every state of a run in which `main` is still running, and
when `main` is no longer running every id submitted has had its result taken.
When `main` has returned `jobs` is closed, and whenever `jobs` is closed no
goroutine is left at `jobs <- id` and every worker stands at the closed
channel, from where it returns, or has returned. -/
def CompletesWithoutDeadlock (P : Program) : Prop :=
  (∀ s s2, Step P s s2 → measure P s2 < measure P s) ∧
  (∀ s, Reachable P s → s.main.alive = true → ∃ s2, Step P s s2) ∧
  (∀ s, Reachable P s →
    s.submitted.length = s.results.length + outstanding s ∧
    (s.main.alive = false → s.results = s.submitted)) ∧
  (∀ s, Reachable P s → s.main = .returned → s.jobsClosed = true) ∧
  (∀ s, Reachable P s → s.jobsClosed = true →
    s.senders = [] ∧ ∀ w ∈ s.workers, w = Worker.running [] ∨ w = Worker.exited)

/-- The decisions of a listing up to its first panic, which is as far as `main`
gets. -/
def beforePanic : List Decision → List Decision
  | [] => []
  | .panic :: _ => []
  | d :: rest => d :: beforePanic rest

end Pool

namespace DeleteAmi
open Pool

/-- The pool part of `main` of `delete-ami-parallel`, for the configuration
read, the Unix time `t` taken at the start and the images `resp.Images` listed:
`No_of_executer` workers running `WorkerPool`, the loop body for every image
and, after the loop, `close(jobs)`. -/
def main (yamlconfig : YAMLConfig) (t : Int) (Images : List Image) : Program :=
  { NoOfExecuter := yamlconfig.No_of_executer
    DryRun := yamlconfig.Dryrun
    listing := Images.map (loopBody yamlconfig t)
    closes := true
    WorkerPool := WorkerPool }

end DeleteAmi

namespace DeleteVolumes
open Pool

/-- The pool part of `main` of `delete-unused-volumes-parallel`: `NoOfExecuter`
workers running `WorkerPool`, the loop body for every volume, and no
`close(jobs)`. -/
def main (yamlconfig : YAMLConfig) (t : Int) (Volumes : List Volume) : Program :=
  { NoOfExecuter := yamlconfig.NoOfExecuter
    DryRun := yamlconfig.Dryrun
    listing := Volumes.map (loopBody yamlconfig t)
    closes := false
    WorkerPool := WorkerPool }

end DeleteVolumes

namespace Pool

/-- All the events are lines printed or logged. -/
def AllPrints (es : List Event) : Prop := ∀ e ∈ es, e.isPrint = true

/-- What the pass of `WorkerPool` through its loop body for one job `j` does:
some prints, one delete request for `j` carrying `DryRun`, some prints, then
the result `j`, and at most four events in all. -/
def OneCallOneResult (P : Program) : Prop :=
  ∀ (id : Int) (j : String) (svc : Nat → String → Bool → Option String),
    ∃ p1 p2, AllPrints p1 ∧ AllPrints p2 ∧
      P.WorkerPool id [j] svc P.DryRun
        = p1 ++ Event.call j P.DryRun :: (p2 ++ [Event.result j]) ∧
      (P.WorkerPool id [j] svc P.DryRun).length ≤ 4

/-- Where a worker stands in its pass: waiting (or returned), before the
request for its job `j`, or after it and before the result. -/
def Worker.Ok (dry : Bool) (w : Worker) : Prop :=
  w.todo = [] ∨
  ∃ j p1 p2, AllPrints p1 ∧ AllPrints p2 ∧
    (w.todo = p1 ++ Event.call j dry :: (p2 ++ [Event.result j]) ∨
     w.todo = p2 ++ [Event.result j])

/-- What holds of a state according to where `main` stands.  In the worker loop
nothing has been submitted and `w - 1` workers exist; in the loop over the
listing the part `done` already looked at had no panic and gave the ids
submitted, and no job is held, or exactly one while `main` waits for its
result; once `jobs` is closed or `main` has returned the whole listing has been
looked at. -/
def MainInv (P : Program) (s : State) : Main → Prop
  | .spawn w =>
    1 ≤ w ∧ (w ≤ P.NoOfExecuter + 1 ∨ w = 1) ∧ s.workers.length = (w - 1).toNat ∧
      held s = [] ∧ s.jobsClosed = false ∧ s.submitted = []
  | .loop rest =>
    held s = [] ∧ s.jobsClosed = false ∧ s.workers.length = P.NoOfExecuter.toNat ∧
      ∃ done, P.listing = done ++ rest ∧ Decision.panic ∉ done ∧ s.submitted = ids done
  | .recv rest =>
    (∃ j, held s = [j]) ∧ s.jobsClosed = false ∧
      s.workers.length = P.NoOfExecuter.toNat ∧
      ∃ done, P.listing = done ++ rest ∧ Decision.panic ∉ done ∧ s.submitted = ids done
  | .closed =>
    held s = [] ∧ s.jobsClosed = true ∧ P.closes = true ∧
      Decision.panic ∉ P.listing ∧ s.submitted = ids P.listing
  | .returned =>
    held s = [] ∧ s.jobsClosed = P.closes ∧
      Decision.panic ∉ P.listing ∧ s.submitted = ids P.listing
  | .panicked =>
    held s = [] ∧
      ∃ done rest, P.listing = done ++ Decision.panic :: rest ∧ Decision.panic ∉ done ∧
        s.submitted = ids done

/-- The invariant of every run: the ids submitted are the results taken followed
by the jobs still held; the delete requests made, those the workers have still
to make and those of the jobs not yet received are, in order, one for each id
submitted, with the program's `DryRun`; every worker is at a point of its pass
where the request comes before the result; no worker has returned while `jobs`
is open; `jobs` is closed only by a program that has `close(jobs)`. -/
structure Inv (P : Program) (s : State) : Prop where
  main : MainInv P s s.main
  submitted : s.submitted = s.results ++ held s
  deletes : s.deletes ++ pendingCalls s.workers ++ s.senders.map (fun j => (j, P.DryRun))
    = s.submitted.map (fun j => (j, P.DryRun))
  workers : ∀ w ∈ s.workers, w.Ok P.DryRun
  noExit : s.jobsClosed = false → Worker.exited ∉ s.workers
  closes : s.jobsClosed = true ∨ Action.close ∈ s.actions → P.closes = true

/-- The worker starts `start 1, ..., start n`. -/
def starts (n : Nat) : List Action :=
  (List.range n).map (fun i => Action.start ((i : Int) + 1))

/-- The action is a submission or the receipt of a result. -/
def Action.isJob : Action → Bool
  | .submit _ => true
  | .receive _ => true
  | _ => false

/-- The shape of the driver's actions `acts` on the pool, according to where
`main` stands: first the worker starts, then submissions and receipts, then,
once `jobs` is closed, the one close. -/
def ActionsShape (P : Program) (acts : List Action) : Main → Prop
  | .spawn w => acts = starts (w - 1).toNat
  | .closed =>
    ∃ mid, acts = starts P.NoOfExecuter.toNat ++ mid ++ [Action.close] ∧
      ∀ a ∈ mid, a.isJob = true
  | .returned =>
    ∃ mid, acts = starts P.NoOfExecuter.toNat ++ mid ++
        (if P.closes then [Action.close] else []) ∧
      ∀ a ∈ mid, a.isJob = true
  | _ => ∃ mid, acts = starts P.NoOfExecuter.toNat ++ mid ∧ ∀ a ∈ mid, a.isJob = true

/-- Give the first waiting worker the pass `pass n`, `n` being the number of
workers before it plus `k`. -/
def startFirst (pass : Nat → List Event) : Nat → List Worker → Option (List Worker)
  | _, [] => none
  | k, w :: ws =>
    if w = .running [] then some (.running (pass k) :: ws)
    else (startFirst pass (k + 1) ws).map (fun r => w :: r)

/-- Take the next event of the first worker inside the loop body. -/
def advanceFirst : List Worker → Option (Event × List Worker)
  | [] => none
  | .running (e :: todo) :: ws => some (e, .running todo :: ws)
  | w :: ws => (advanceFirst ws).map (fun r => (r.1, w :: r.2))

/-- One step of the run under a fixed scheduler, with `svc` the answers of the
service: `main` moves whenever it can; while it waits at `<-results` the first
waiting worker receives the job if one is being sent, otherwise the first
worker inside the loop body moves.  `none` when no step is possible. -/
def stepFirst (P : Program) (svc : Nat → String → Bool → Option String) (s : State) :
    Option State :=
  match s.main with
  | .spawn w =>
    if w ≤ P.NoOfExecuter then
      some { s with main := .spawn (w + 1), workers := s.workers ++ [.running []],
                    actions := s.actions ++ [.start w] }
    else some { s with main := .loop P.listing }
  | .loop (.skip :: rest) => some { s with main := .loop rest }
  | .loop (.panic :: _) => some { s with main := .panicked }
  | .loop (.submit id :: rest) =>
    some { s with main := .recv rest, senders := s.senders ++ [id],
                  submitted := s.submitted ++ [id],
                  actions := s.actions ++ [.submit id] }
  | .loop [] =>
    if P.closes then
      some { s with main := .closed, jobsClosed := true, actions := s.actions ++ [.close] }
    else some { s with main := .returned }
  | .recv rest =>
    match s.senders with
    | j :: b =>
      if s.jobsClosed then none
      else (startFirst (fun k => P.WorkerPool ((k : Int) + 1) [j] svc P.DryRun) 0 s.workers).map
        (fun ws => { s with senders := b, workers := ws })
    | [] =>
      match advanceFirst s.workers with
      | none => none
      | some (.print _, ws) => some { s with workers := ws }
      | some (.call id d, ws) => some { s with workers := ws, deletes := s.deletes ++ [(id, d)] }
      | some (.result id, ws) =>
        some { s with main := .loop rest, workers := ws, results := s.results ++ [id],
                      actions := s.actions ++ [.receive id] }
  | .closed => some { s with main := .returned }
  | .returned => none
  | .panicked => none

/-- The state after at most `fuel` steps from `s` under the scheduler of
`stepFirst`. -/
def runFirst (P : Program) (svc : Nat → String → Bool → Option String) : Nat → State → State
  | 0, s => s
  | fuel + 1, s =>
    match stepFirst P svc s with
    | some s2 => runFirst P svc fuel s2
    | none => s

end Pool

/-! ## Concrete inputs used to instantiate the theorems -/

namespace Examples

/-- An image created on 2016-05-03 at 12:34:56 UTC (Unix time 1462278896). -/
def image40 : DeleteAmi.Image :=
  { ImageId := "ami-0a1", CreationDate := "2016-05-03T12:34:56.000Z", Name := none }

/-- A configuration with one excluded id, three workers, a `Duration` of 30 days
in seconds and `Dryrun` set. -/
def amiConfig : DeleteAmi.YAMLConfig :=
  { Exclude_ami := ["ami-111"], No_of_executer := 3, Duration := 2592000, Dryrun := true }

/-- An image created on 2026-11-04 at 22:00:00 UTC (Unix time 1793829600) whose
`CreationDate` has no fraction of a second. -/
def imageNoFraction : DeleteAmi.Image :=
  { ImageId := "ami-noFrac", CreationDate := "2026-11-04T22:00:00Z", Name := some "fresh" }

/-- An image whose `CreationDate` has a blank where EC2 puts the `T`. -/
def imageNoT : DeleteAmi.Image :=
  { ImageId := "ami-noT", CreationDate := "2016-05-03 12:34:56", Name := none }

/-- A configuration with nothing excluded, two workers, 30 days and `Dryrun`
off. -/
def plainConfig : DeleteAmi.YAMLConfig :=
  { Exclude_ami := [], No_of_executer := 2, Duration := 2592000, Dryrun := false }

/-- The Unix time at which the example runs start: 40 days after `image40`
was created. -/
def startTime : Int := 1465734896

/-- The configuration of the example runs of `delete-ami-parallel`: two
workers. -/
def twoWorkers : DeleteAmi.YAMLConfig :=
  { Exclude_ami := ["ami-111"], No_of_executer := 2, Duration := 2592000, Dryrun := true }

/-- Two listed images, both older than 30 days at `startTime` and neither
excluded. -/
def oldImages : List DeleteAmi.Image :=
  [ image40,
    { ImageId := "ami-0b2", CreationDate := "2016-05-04T00:00:00.000Z", Name := some "build" } ]

/-- The example run of `delete-ami-parallel`. -/
def amiRun : Pool.Program := DeleteAmi.main twoWorkers startTime oldImages

/-- The service answers every dry run request with an error and every other
request with success. -/
def dryRunAnswers : Nat → String → Bool → Option String :=
  fun _ _ d => if d then some "DryRunOperation" else none

/-- The state of `amiRun` after both workers are started. -/
def workersStarted : Pool.State :=
  { main := .loop [.submit "ami-0a1", .submit "ami-0b2"], senders := [],
    workers := [.running [], .running []], jobsClosed := false, submitted := [],
    deletes := [], results := [], actions := [.start 1, .start 2] }

/-- The state of `amiRun` when the first image has been submitted and `main`
waits for its result. -/
def oneSubmitted : Pool.State :=
  { main := .recv [.submit "ami-0b2"], senders := ["ami-0a1"],
    workers := [.running [], .running []], jobsClosed := false,
    submitted := ["ami-0a1"], deletes := [], results := [],
    actions := [.start 1, .start 2, .submit "ami-0a1"] }

/-- The configuration of the example run of `delete-unused-volumes-parallel`:
two workers, 30 days. -/
def volConfig : DeleteVolumes.YAMLConfig :=
  { NoOfExecuter := 2, Duration := 2592000, Dryrun := false }

/-- Two listed volumes, both older than 30 days at `startTime`; the first is
available, the second attached. -/
def someVolumes : List DeleteVolumes.Volume :=
  [ { VolumeId := "vol-1", CreateTime := ⟨1462278896⟩, State := "available",
      AvailabilityZone := "us-east-1a" },
    { VolumeId := "vol-2", CreateTime := ⟨1462278896⟩, State := "in-use",
      AvailabilityZone := "us-east-1a" } ]

/-- The example run of `delete-unused-volumes-parallel`. -/
def volRun : Pool.Program := DeleteVolumes.main volConfig startTime someVolumes

/-- The state in which the scheduler of `stepFirst` leaves `amiRun`. -/
def amiFinal : Pool.State :=
  { main := .returned, senders := [], workers := [.running [], .running []],
    jobsClosed := true, submitted := ["ami-0a1", "ami-0b2"],
    deletes := [("ami-0a1", true), ("ami-0b2", true)],
    results := ["ami-0a1", "ami-0b2"],
    actions := [.start 1, .start 2, .submit "ami-0a1", .receive "ami-0a1",
                .submit "ami-0b2", .receive "ami-0b2", .close] }

/-- The state in which the scheduler of `stepFirst` leaves `volRun`. -/
def volFinal : Pool.State :=
  { main := .returned, senders := [], workers := [.running [], .running []],
    jobsClosed := false, submitted := ["vol-1"], deletes := [("vol-1", false)],
    results := ["vol-1"],
    actions := [.start 1, .start 2, .submit "vol-1", .receive "vol-1"] }

/-- Three listed images: an old one, one whose `CreationDate` has no `T`, and
another old one after it. -/
def imagesWithNoT : List DeleteAmi.Image :=
  [ { ImageId := "ami-ok", CreationDate := "2016-05-03T12:34:56.000Z", Name := none },
    imageNoT,
    { ImageId := "ami-after", CreationDate := "2016-05-03T12:34:56.000Z", Name := none } ]

/-- The run of `delete-ami-parallel` on `imagesWithNoT`. -/
def panicRun : Pool.Program := DeleteAmi.main plainConfig startTime imagesWithNoT

/-- The state in which the scheduler of `stepFirst` leaves `panicRun`. -/
def panicFinal : Pool.State :=
  { main := .panicked, senders := [], workers := [.running [], .running []],
    jobsClosed := false, submitted := ["ami-ok"], deletes := [("ami-ok", false)],
    results := ["ami-ok"],
    actions := [.start 1, .start 2, .submit "ami-ok", .receive "ami-ok"] }

end Examples

/-! ## The retention decision -/

namespace GoLib

theorem wrap64_of_in64 (x : Int) (h : In64 x) : wrap64 x = x := by
  unfold In64 at h
  unfold wrap64
  rw [Int.emod_eq_of_lt (by omega) (by omega)]
  omega

end GoLib

namespace DeleteAmi
open GoLib Pool

theorem AmiCheck_go_eq_true (AmiID : String) (l : List String) :
    AmiCheck.go AmiID l = true ↔ AmiID ∈ l := by
  induction l with
  | nil => simp [AmiCheck.go]
  | cons b rest ih =>
    simp only [AmiCheck.go, List.mem_cons]
    by_cases hb : b = AmiID
    · simp [hb]
    · have hb2 : ¬ AmiID = b := fun h => hb h.symm
      simp [hb, hb2, ih]

theorem AmiCheck_eq_true (AmiID : String) (yamlconfig : YAMLConfig) :
    AmiCheck AmiID yamlconfig = true ↔ AmiID ∈ yamlconfig.Exclude_ami := by
  unfold AmiCheck
  exact AmiCheck_go_eq_true AmiID yamlconfig.Exclude_ami

/-- C10. `AmiCheck` answers true exactly when the id equals an element of
`Exclude_ami`; it answers false for every id when the list is empty; an id that
is only a prefix of an excluded id, or differs from it in letter case, is not
matched. -/
theorem AmiCheck_iff_mem (AmiID : String) (yamlconfig : YAMLConfig) :
    (AmiCheck AmiID yamlconfig = true ↔ ∃ b ∈ yamlconfig.Exclude_ami, b = AmiID) ∧
    AmiCheck AmiID { yamlconfig with Exclude_ami := [] } = false ∧
    AmiCheck "ami-1" { yamlconfig with Exclude_ami := ["ami-11", "AMI-1"] } = false := by
  refine ⟨?_, ?_, ?_⟩
  · rw [AmiCheck_eq_true]
    constructor
    · intro h
      exact ⟨AmiID, h, rfl⟩
    · rintro ⟨b, hb, rfl⟩
      exact hb
  · simp [AmiCheck, AmiCheck.go]
  · simp [AmiCheck, AmiCheck.go]

/-- C3 (what the code does). The month 13 does not parse, the error is dropped,
the zero time stands in for the creation date and the image, listed at the very
second the run starts, is submitted. -/
theorem ami_malformed_date_submitted :
    (Parse "2016-13-03 12:34:56").2 ≠ none ∧
    AMICreationDate "2016-13-03T12:34:56.000Z" = some (-62135596800) ∧
    loopBody { Exclude_ami := [], No_of_executer := 1, Duration := 2592000, Dryrun := false }
        1700000000
        { ImageId := "ami-1", CreationDate := "2016-13-03T12:34:56.000Z", Name := some "new" }
      = Decision.submit "ami-1" := by
  decide

end DeleteAmi

namespace DeleteVolumes
open GoLib Pool

/-- C2. For a start time `t` with `t - CreateTime.Unix()` in the `int64` range,
the loop body submits the volume's id exactly when `t - CreateTime.Unix()` is
greater than `Duration` and `State` is the string `available`; a volume whose
`State` is `in-use` is skipped. -/
theorem volume_submit_iff (yamlconfig : YAMLConfig) (t : Int) (volume : Volume)
    (hsub : In64 (t - volume.CreateTime.Unix)) :
    (loopBody yamlconfig t volume = Decision.submit volume.VolumeId ↔
        (t - volume.CreateTime.Unix > yamlconfig.Duration ∧ volume.State = "available")) ∧
    (volume.State = "in-use" → loopBody yamlconfig t volume = Decision.skip) := by
  have hw : sub64 t volume.CreateTime.Unix = t - volume.CreateTime.Unix :=
    wrap64_of_in64 _ hsub
  constructor
  · simp only [loopBody, hw]
    by_cases hd : t - volume.CreateTime.Unix > yamlconfig.Duration
    · by_cases hs : volume.State = "available"
      · simp [hd, hs]
      · simp [hd, hs]
    · simp [hd]
  · intro hs
    simp only [loopBody, hw, hs]
    have : ("in-use" == "available") = false := by decide
    simp [this]

theorem volume_submit_iff_witness :
    loopBody { NoOfExecuter := 3, Duration := 2592000, Dryrun := true } 1465734896
        { VolumeId := "vol-1", CreateTime := ⟨1462278896⟩, State := "available",
          AvailabilityZone := "us-east-1a" }
      = Decision.submit "vol-1" ∧
    loopBody { NoOfExecuter := 3, Duration := 2592000, Dryrun := true } 1465734896
        { VolumeId := "vol-2", CreateTime := ⟨1462278896⟩, State := "in-use",
          AvailabilityZone := "us-east-1a" }
      = Decision.skip :=
  ⟨((volume_submit_iff { NoOfExecuter := 3, Duration := 2592000, Dryrun := true } 1465734896
        { VolumeId := "vol-1", CreateTime := ⟨1462278896⟩, State := "available",
          AvailabilityZone := "us-east-1a" } (by decide)).1).2 ⟨by decide, by decide⟩,
   (volume_submit_iff { NoOfExecuter := 3, Duration := 2592000, Dryrun := true } 1465734896
        { VolumeId := "vol-2", CreateTime := ⟨1462278896⟩, State := "in-use",
          AvailabilityZone := "us-east-1a" } (by decide)).2 (by decide)⟩

end DeleteVolumes

/-! ## The creation date of a well formed timestamp -/

namespace DeleteAmi
open GoLib Pool

theorem digitChar_facts (d : Nat) (h : d < 10) :
    isDigit (digitChar d) = true ∧ digitVal (digitChar d) = d ∧
    digitChar d ≠ '.' ∧ digitChar d ≠ 'T' ∧ digitChar d ≠ ' ' := by
  interval_cases d <;> decide

theorem getyear_digits (a b c d : Nat) (ha : a < 10) (hb : b < 10) (hc : c < 10)
    (hd : d < 10) (rest : List Char) :
    getyear (digitChar a :: digitChar b :: digitChar c :: digitChar d :: rest)
      = some (a * 1000 + b * 100 + c * 10 + d, rest) := by
  simp [getyear, (digitChar_facts a ha).1, (digitChar_facts b hb).1, (digitChar_facts c hc).1,
    (digitChar_facts d hd).1, (digitChar_facts a ha).2.1, (digitChar_facts b hb).2.1,
    (digitChar_facts c hc).2.1, (digitChar_facts d hd).2.1]

theorem getnum_digits (a b : Nat) (ha : a < 10) (hb : b < 10) (rest : List Char)
    (isFixed : Bool) :
    getnum (digitChar a :: digitChar b :: rest) isFixed = some (a * 10 + b, rest) := by
  simp [getnum, (digitChar_facts a ha).1, (digitChar_facts b hb).1,
    (digitChar_facts a ha).2.1, (digitChar_facts b hb).2.1]

theorem skipSpace_digit (a : Nat) (ha : a < 10) (rest : List Char) :
    skipSpace (' ' :: digitChar a :: rest) = some (digitChar a :: rest) := by
  have hb : (digitChar a == ' ') = false := by
    simpa using (digitChar_facts a ha).2.2.2.2
  simp [skipSpace, List.dropWhile, hb]

theorem splitChars_no_sep (sep : Char) (cs : List Char) (h : sep ∉ cs) :
    splitChars sep cs = [cs] := by
  induction cs with
  | nil => rfl
  | cons c rest ih =>
    have hc : c ≠ sep := fun e => h (by simp [e])
    have hr : sep ∉ rest := fun e => h (by simp [e])
    simp [splitChars, hc, ih hr]

theorem splitChars_at_sep (sep : Char) (pre post : List Char) (h : sep ∉ pre) :
    splitChars sep (pre ++ sep :: post) = pre :: splitChars sep post := by
  induction pre with
  | nil => simp [splitChars]
  | cons c rest ih =>
    have hc : c ≠ sep := fun e => h (by simp [e])
    have hr : sep ∉ rest := fun e => h (by simp [e])
    simp [splitChars, hc, ih hr]

theorem rangeCheck_false : rangeCheck false = some () := rfl

theorem parseDate_digits (year month day : Nat) (hy : year < 10000)
    (hm : 1 ≤ month ∧ month ≤ 12) (hd : day < 100) (rest : List Char) :
    parseDate (dateChars year month day ++ rest) = some ((year, month, day), rest) := by
  have ey : year / 1000 % 10 * 1000 + year / 100 % 10 * 100 + year / 10 % 10 * 10
      + year % 10 = year := by omega
  have e2 : ∀ n, n < 100 → n / 10 % 10 * 10 + n % 10 = n := by intro n hn; omega
  have hlt : ∀ n : Nat, n % 10 < 10 := fun n => Nat.mod_lt _ (by norm_num)
  have c1 : decide (month = 0 ∨ 12 < month) = false := by
    have : ¬ (month = 0 ∨ 12 < month) := by omega
    simp [this]
  simp only [parseDate, dateChars, digits4, digits2, List.cons_append, List.nil_append]
  rw [getyear_digits _ _ _ _ (hlt _) (hlt _) (hlt _) (hlt _)]
  simp only [Option.bind_eq_bind, Option.some_bind, skipLit, if_true, ey,
    getnum_digits _ _ (hlt _) (hlt _), e2 month (by omega), e2 day hd, c1,
    rangeCheck_false]

theorem parseClock_digits (hour min sec : Nat) (hh : hour < 24) (hmi : min < 60)
    (hs : sec < 60) :
    parseClock (clockChars hour min sec) = some ((hour, min, sec), []) := by
  have e2 : ∀ n, n < 100 → n / 10 % 10 * 10 + n % 10 = n := by intro n hn; omega
  have hlt : ∀ n : Nat, n % 10 < 10 := fun n => Nat.mod_lt _ (by norm_num)
  have c2 : decide (24 ≤ hour) = false := by simp; omega
  have c3 : decide (60 ≤ min) = false := by simp; omega
  have c4 : decide (60 ≤ sec) = false := by simp; omega
  simp only [parseClock, clockChars, digits2, List.cons_append, List.nil_append]
  simp only [Option.bind_eq_bind, Option.some_bind, skipLit, if_true,
    getnum_digits _ _ (hlt _) (hlt _), e2 hour (by omega), e2 min (by omega),
    e2 sec (by omega), c2, c3, c4, rangeCheck_false, skipFraction]

theorem daysIn_le (month year : Nat) : daysIn month year ≤ 31 := by
  unfold daysIn
  split
  · split <;> omega
  · split <;> omega

theorem parseFields_digits (year month day hour min sec : Nat)
    (hy : year < 10000) (hm : 1 ≤ month ∧ month ≤ 12)
    (hd : 1 ≤ day ∧ day ≤ daysIn month year) (hh : hour < 24) (hmi : min < 60)
    (hs : sec < 60) :
    parseFields (dateChars year month day ++ ' ' :: clockChars hour min sec)
      = some (Date year month day hour min sec) := by
  have hday : day < 100 := by
    have := daysIn_le month year
    omega
  have hlt : ∀ n : Nat, n % 10 < 10 := fun n => Nat.mod_lt _ (by norm_num)
  have c5 : decide (([] : List Char) ≠ []) = false := by simp
  have c6 : decide (day < 1 ∨ daysIn month year < day) = false := by
    have : ¬ (day < 1 ∨ daysIn month year < day) := by omega
    simpa using this
  have hsp : skipSpace (' ' :: clockChars hour min sec) = some (clockChars hour min sec) := by
    simp only [clockChars, digits2, List.cons_append, List.nil_append]
    exact skipSpace_digit _ (hlt _) _
  unfold parseFields
  rw [parseDate_digits year month day hy hm hday]
  simp only [Option.bind_eq_bind, Option.some_bind, hsp,
    parseClock_digits hour min sec hh hmi hs, c5, c6, rangeCheck_false]

theorem toList_mk (cs : List Char) : (String.mk cs).toList = cs := rfl

/-- For the text EC2 gives for a valid calendar instant, the three lines of
`main` compute the Unix time of that instant. -/
theorem AMICreationDate_awsTimestamp (year month day hour min sec : Nat) (frac : List Char)
    (hy : year < 10000) (hm : 1 ≤ month ∧ month ≤ 12)
    (hd : 1 ≤ day ∧ day ≤ daysIn month year) (hh : hour < 24) (hmi : min < 60)
    (hs : sec < 60) :
    AMICreationDate (awsTimestamp year month day hour min sec frac)
      = some (Date year month day hour min sec).Unix := by
  have hlt : ∀ n : Nat, n % 10 < 10 := fun n => Nat.mod_lt _ (by norm_num)
  have hdot2 : ∀ n : Nat, ¬ '.' = digitChar (n % 10) :=
    fun n e => (digitChar_facts _ (hlt n)).2.2.1 e.symm
  have hT2 : ∀ n : Nat, ¬ 'T' = digitChar (n % 10) :=
    fun n e => (digitChar_facts _ (hlt n)).2.2.2.1 e.symm
  have s1 := splitChars_at_sep '.' (dateChars year month day ++ ('T' :: clockChars hour min sec))
    frac (by simp [dateChars, clockChars, digits4, digits2, hdot2])
  have s2 := splitChars_at_sep 'T' (dateChars year month day) (clockChars hour min sec)
    (by simp [dateChars, digits4, digits2, hT2])
  rw [splitChars_no_sep 'T' (clockChars hour min sec)
    (by simp [clockChars, digits2, hT2])] at s2
  have hparse := parseFields_digits year month day hour min sec hy hm hd hh hmi hs
  have hdata : (String.mk (dateChars year month day) ++ " " ++
      String.mk (clockChars hour min sec)).toList
      = dateChars year month day ++ ' ' :: clockChars hour min sec := by
    simp [String.toList, String.data_append]
  unfold AMICreationDate awsTimestamp Split
  rw [toList_mk, s1]
  simp only [List.map_cons, List.get?_cons_zero, toList_mk, s2, List.get?_cons_succ,
    List.map_nil]
  simp only [Parse, hdata, hparse]

end DeleteAmi

/-! ## The calendar -/

namespace GoLib

theorem isLeap_iff (year : Nat) :
    isLeap year = true ↔ year % 4 = 0 ∧ (year % 100 ≠ 0 ∨ year % 400 = 0) := by
  simp [isLeap]

theorem year_step (y q4 q100 q400 p4 p100 p400 l : Nat)
    (h4 : p4 = q4 + (if y % 4 = 0 then 1 else 0))
    (h100 : p100 = q100 + (if y % 100 = 0 then 1 else 0))
    (h400 : p400 = q400 + (if y % 400 = 0 then 1 else 0))
    (hl : l = if y % 4 = 0 ∧ (y % 100 ≠ 0 ∨ y % 400 = 0) then 366 else 365)
    (e0 : q100 ≤ q4) :
    (y + 1) * 365 + p4 - p100 + p400 = y * 365 + q4 - q100 + q400 + l := by
  subst h4 h100 h400 hl
  by_cases a : y % 4 = 0 <;> by_cases b : y % 100 = 0 <;> by_cases c : y % 400 = 0 <;>
    simp only [a, b, c, if_true, if_false, ne_eq, not_true_eq_false, not_false_eq_true,
      and_true, and_false, or_true, or_false, true_and, false_and, true_or, false_or] <;>
    omega

theorem daysInYear_eq (year : Nat) :
    daysInYear year
      = if year % 4 = 0 ∧ (year % 100 ≠ 0 ∨ year % 400 = 0) then 366 else 365 := by
  unfold daysInYear
  cases h : isLeap year with
  | true =>
    rw [if_pos ((isLeap_iff year).1 h)]
    rfl
  | false =>
    have hn : ¬ (year % 4 = 0 ∧ (year % 100 ≠ 0 ∨ year % 400 = 0)) := by
      intro hc
      rw [(isLeap_iff year).2 hc] at h
      exact absurd h (by simp)
    rw [if_neg hn]
    rfl

theorem daysSinceYearZero_succ (year : Nat) :
    daysSinceYearZero (year + 1) = daysSinceYearZero year + daysInYear year := by
  have h4 : (year + 1 + 3) / 4 = (year + 3) / 4 + (if year % 4 = 0 then 1 else 0) := by
    split <;> omega
  have h100 : (year + 1 + 99) / 100
      = (year + 99) / 100 + (if year % 100 = 0 then 1 else 0) := by
    split <;> omega
  have h400 : (year + 1 + 399) / 400
      = (year + 399) / 400 + (if year % 400 = 0 then 1 else 0) := by
    split <;> omega
  have e0 : (year + 99) / 100 ≤ (year + 3) / 4 := by omega
  unfold daysSinceYearZero
  exact year_step year _ _ _ _ _ _ _ h4 h100 h400 (daysInYear_eq year) e0

theorem daysSinceYearZero_eq (year : Nat) : daysSinceYearZero year = daysBeforeYear year := by
  induction year with
  | zero => rfl
  | succ n ih => rw [daysSinceYearZero_succ, daysBeforeYear, ih]

theorem daysBefore_eq (year month : Nat) (hm : 1 ≤ month ∧ month ≤ 12) :
    daysBefore month + (if isLeap year && decide (3 ≤ month) then 1 else 0)
      = daysBeforeMonth year month := by
  obtain ⟨h1, h12⟩ := hm
  interval_cases month <;> cases hl : isLeap year <;>
    simp [daysBefore, daysBeforeMonth, daysIn, hl]

theorem daysBeforeYear_1970 : daysBeforeYear 1970 = 719528 := by
  rw [← daysSinceYearZero_eq]
  rfl

theorem Date_eq_unixSeconds (year month day hour min sec : Nat)
    (hm : 1 ≤ month ∧ month ≤ 12) :
    (Date year month day hour min sec).Unix = unixSeconds year month day hour min sec := by
  unfold Date unixSeconds Time.Unix
  simp only [daysBeforeYear_1970]
  rw [daysSinceYearZero_eq, Nat.add_assoc (daysBeforeYear year), daysBefore_eq year month hm]
  rfl

end GoLib

/-! ## The retention decision for an image -/

namespace DeleteAmi
open GoLib Pool

theorem loopBody_of_creation (yamlconfig : YAMLConfig) (t c : Int) (image : Image)
    (hc : AMICreationDate image.CreationDate = some c) (hsub : In64 (t - c))
    (name : Option String) :
    loopBody yamlconfig t { image with Name := name } =
      if image.ImageId ∈ yamlconfig.Exclude_ami then Decision.skip
      else if t - c > yamlconfig.Duration then Decision.submit image.ImageId
      else Decision.skip := by
  have hw : sub64 t c = t - c := wrap64_of_in64 _ hsub
  simp only [loopBody, hc, hw]
  by_cases hx : image.ImageId ∈ yamlconfig.Exclude_ami
  · simp [hx, (AmiCheck_eq_true _ _).2 hx]
  · have hx2 : AmiCheck image.ImageId yamlconfig = false := by
      cases h : AmiCheck image.ImageId yamlconfig
      · rfl
      · exact absurd ((AmiCheck_eq_true _ _).1 h) hx
    by_cases hd : t - c > yamlconfig.Duration
    · cases name <;> simp [hx, hx2, hd]
    · simp [hx, hx2, hd]

/-- C1 (amended). For an image whose `CreationDate` is the text EC2 gives for a
valid calendar instant (`YYYY-MM-DDTHH:MM:SS`, a period and a fraction), with
`c` the Unix time of that instant, and a start time `t` with `t - c` in the
`int64` range: the loop body submits the image's id exactly when
`t - c > Duration` and the id is not in `Exclude_ami`.  An excluded id is
skipped whatever the age, an age equal to `Duration` is skipped, and the
decision does not depend on `Name`. -/
theorem ami_submit_iff (yamlconfig : YAMLConfig) (t : Int) (image : Image)
    (year month day hour min sec : Nat) (frac : List Char)
    (hy : year < 10000) (hm : 1 ≤ month ∧ month ≤ 12)
    (hd : 1 ≤ day ∧ day ≤ daysIn month year) (hh : hour < 24) (hmi : min < 60)
    (hs : sec < 60)
    (hdate : image.CreationDate = awsTimestamp year month day hour min sec frac)
    (hsub : In64 (t - unixSeconds year month day hour min sec)) :
    (loopBody yamlconfig t image = Decision.submit image.ImageId ↔
        (t - unixSeconds year month day hour min sec > yamlconfig.Duration ∧
          image.ImageId ∉ yamlconfig.Exclude_ami)) ∧
    (image.ImageId ∈ yamlconfig.Exclude_ami → loopBody yamlconfig t image = Decision.skip) ∧
    (t - unixSeconds year month day hour min sec = yamlconfig.Duration →
        loopBody yamlconfig t image = Decision.skip) ∧
    (∀ name : Option String,
        loopBody yamlconfig t { image with Name := name } = loopBody yamlconfig t image) := by
  have hc : AMICreationDate image.CreationDate
      = some (unixSeconds year month day hour min sec) := by
    rw [hdate, AMICreationDate_awsTimestamp year month day hour min sec frac hy hm hd hh hmi hs,
      Date_eq_unixSeconds year month day hour min sec hm]
  have key := loopBody_of_creation yamlconfig t _ image hc hsub
  have key0 := key image.Name
  have himg : ({ image with Name := image.Name } : Image) = image := rfl
  rw [himg] at key0
  refine ⟨?_, ?_, ?_, ?_⟩
  · rw [key0]
    by_cases hx : image.ImageId ∈ yamlconfig.Exclude_ami
    · simp [hx]
    · by_cases hd : t - unixSeconds year month day hour min sec > yamlconfig.Duration
      · simp [hx, hd]
      · simp [hx, hd]
  · intro hx
    rw [key0]
    simp [hx]
  · intro he
    rw [key0]
    have : ¬ t - unixSeconds year month day hour min sec > yamlconfig.Duration := by omega
    simp [this]
  · intro name
    rw [key name, key0]

end DeleteAmi

namespace Examples
open GoLib

theorem image40_created : unixSeconds 2016 5 3 12 34 56 = 1462278896 := by
  rw [← Date_eq_unixSeconds 2016 5 3 12 34 56 (by decide)]
  rfl

theorem imageNoFraction_created : unixSeconds 2026 11 4 22 0 0 = 1793829600 := by
  rw [← Date_eq_unixSeconds 2026 11 4 22 0 0 (by decide)]
  rfl

theorem image40_text :
    image40.CreationDate = DeleteAmi.awsTimestamp 2016 5 3 12 34 56 "000Z".toList := by
  decide

end Examples

namespace DeleteAmi
open GoLib Pool

theorem ami_submit_iff_witness :
    unixSeconds 2016 5 3 12 34 56 = 1462278896 ∧
    loopBody Examples.amiConfig (1462278896 + 2592000 + 1) Examples.image40
      = Decision.submit "ami-0a1" ∧
    loopBody Examples.amiConfig (1462278896 + 2592000) Examples.image40 = Decision.skip :=
  ⟨Examples.image40_created,
   ((ami_submit_iff Examples.amiConfig (1462278896 + 2592000 + 1) Examples.image40
      2016 5 3 12 34 56 "000Z".toList (by decide) (by decide) (by decide) (by decide)
      (by decide) (by decide) Examples.image40_text
      (by rw [Examples.image40_created]; decide)).1).2
      ⟨by rw [Examples.image40_created]; decide, by decide⟩,
   (ami_submit_iff Examples.amiConfig (1462278896 + 2592000) Examples.image40
      2016 5 3 12 34 56 "000Z".toList (by decide) (by decide) (by decide) (by decide)
      (by decide) (by decide) Examples.image40_text
      (by rw [Examples.image40_created]; decide)).2.2.1
      (by rw [Examples.image40_created]; decide)⟩

/-- C1 (as stated, refuted). An image created 1595 seconds before the start,
not excluded, whose `CreationDate` has no fraction of a second, is submitted
although its age is below the 30 days of `Duration`; and an image 40 days old,
not excluded, whose `CreationDate` has no `T`, is not submitted: the loop body
panics. -/
theorem ami_submit_iff_fails_on_other_texts :
    unixSeconds 2026 11 4 22 0 0 = 1793829600 ∧
    ¬ (1793831195 - unixSeconds 2026 11 4 22 0 0 > Examples.plainConfig.Duration) ∧
    Examples.imageNoFraction.ImageId ∉ Examples.plainConfig.Exclude_ami ∧
    loopBody Examples.plainConfig 1793831195 Examples.imageNoFraction
      = Decision.submit "ami-noFrac" ∧
    Examples.startTime - unixSeconds 2016 5 3 12 34 56 > Examples.plainConfig.Duration ∧
    Examples.imageNoT.ImageId ∉ Examples.plainConfig.Exclude_ami ∧
    loopBody Examples.plainConfig Examples.startTime Examples.imageNoT = Decision.panic := by
  rw [Examples.imageNoFraction_created, Examples.image40_created]
  decide

end DeleteAmi

/-! ## One worker -/

namespace Pool

theorem withoutPrints_append (xs ys : List Event) :
    withoutPrints (xs ++ ys) = withoutPrints xs ++ withoutPrints ys := by
  simp [withoutPrints]

end Pool

namespace DeleteAmi
open Pool

theorem withoutPrints_DeregisterAmi (amiID : String) (svc : String → Bool → Option String)
    (DryRun : Bool) :
    withoutPrints (DeregisterAmi amiID svc DryRun) = [Event.call amiID DryRun] := by
  unfold DeregisterAmi
  cases svc amiID DryRun <;> simp [withoutPrints, Event.isPrint]

theorem withoutPrints_WorkerPool_ami (id : Int) (jobs : List String)
    (svc : Nat → String → Bool → Option String) (DryRun : Bool) :
    withoutPrints (WorkerPool id jobs svc DryRun)
      = jobs.flatMap (fun j => [Event.call j DryRun, Event.result j]) := by
  induction jobs generalizing svc with
  | nil => simp [WorkerPool, withoutPrints]
  | cons j rest ih =>
    rw [WorkerPool]
    simp only [withoutPrints_append, withoutPrints_DeregisterAmi, ih, List.flatMap_cons]
    simp [withoutPrints, Event.isPrint]

end DeleteAmi

namespace DeleteVolumes
open Pool

theorem withoutPrints_DeleteUnusedVolumes (volumeID : String)
    (svc : String → Bool → Option String) (DryRun : Bool) :
    withoutPrints (DeleteUnusedVolumes volumeID svc DryRun) = [Event.call volumeID DryRun] := by
  unfold DeleteUnusedVolumes
  cases svc volumeID DryRun <;> simp [withoutPrints, Event.isPrint]

theorem withoutPrints_WorkerPool_volumes (id : Int) (jobs : List String)
    (svc : Nat → String → Bool → Option String) (DryRun : Bool) :
    withoutPrints (WorkerPool id jobs svc DryRun)
      = jobs.flatMap (fun j => [Event.call j DryRun, Event.result j]) := by
  induction jobs generalizing svc with
  | nil => simp [WorkerPool, withoutPrints]
  | cons j rest ih =>
    rw [WorkerPool]
    simp only [withoutPrints_append, withoutPrints_DeleteUnusedVolumes, ih, List.flatMap_cons]
    simp [withoutPrints, Event.isPrint]

end DeleteVolumes

namespace Pool

theorem filterMap_result_pairs (jobs : List String) (DryRun : Bool) :
    (jobs.flatMap (fun j => [Event.call j DryRun, Event.result j])).filterMap Event.result?
      = jobs := by
  induction jobs with
  | nil => rfl
  | cons j rest ih => simp [List.flatMap_cons, Event.result?, ih]

theorem filterMap_call_pairs (jobs : List String) (DryRun : Bool) :
    (jobs.flatMap (fun j => [Event.call j DryRun, Event.result j])).filterMap Event.call?
      = jobs.map (fun j => (j, DryRun)) := by
  induction jobs with
  | nil => rfl
  | cons j rest ih => simp [List.flatMap_cons, Event.call?, ih]

/-- C4. Whatever the service answers to each request (`svc`), a worker of either
program that receives the jobs `jobs` makes, for each job in the order received,
one delete request for that job followed by one result carrying the job's own
id: its requests and results, prints left out, are
`call j1, result j1, call j2, result j2, ...`.  So the ids of the requests and
the results are both `jobs`, also when every call fails. -/
theorem worker_one_call_one_result (id : Int) (jobs : List String)
    (svc : Nat → String → Bool → Option String) (DryRun : Bool) :
    withoutPrints (DeleteAmi.WorkerPool id jobs svc DryRun)
      = jobs.flatMap (fun j => [Event.call j DryRun, Event.result j]) ∧
    withoutPrints (DeleteVolumes.WorkerPool id jobs svc DryRun)
      = jobs.flatMap (fun j => [Event.call j DryRun, Event.result j]) ∧
    (DeleteAmi.WorkerPool id jobs svc DryRun).filterMap Event.result? = jobs ∧
    (DeleteVolumes.WorkerPool id jobs svc DryRun).filterMap Event.result? = jobs ∧
    (DeleteAmi.WorkerPool id jobs svc DryRun).filterMap Event.call?
      = jobs.map (fun j => (j, DryRun)) ∧
    (DeleteVolumes.WorkerPool id jobs svc DryRun).filterMap Event.call?
      = jobs.map (fun j => (j, DryRun)) := by
  have strip : ∀ es : List Event,
      (withoutPrints es).filterMap Event.result? = es.filterMap Event.result? ∧
      (withoutPrints es).filterMap Event.call? = es.filterMap Event.call? := by
    intro es
    induction es with
    | nil => exact ⟨rfl, rfl⟩
    | cons e rest ih =>
      cases e <;>
        simp [withoutPrints, Event.isPrint, Event.result?, Event.call?, List.filter_cons] at ih ⊢ <;>
        simp [ih]
  have ha := DeleteAmi.withoutPrints_WorkerPool_ami id jobs svc DryRun
  have hv := DeleteVolumes.withoutPrints_WorkerPool_volumes id jobs svc DryRun
  refine ⟨ha, hv, ?_, ?_, ?_, ?_⟩
  · rw [← (strip _).1, ha, filterMap_result_pairs]
  · rw [← (strip _).1, hv, filterMap_result_pairs]
  · rw [← (strip _).2, ha, filterMap_call_pairs]
  · rw [← (strip _).2, hv, filterMap_call_pairs]

end Pool

/-! ## Workers and the pass of `WorkerPool` for one job -/

namespace Pool

theorem append_cons_eq_singleton {α : Type} {a b : List α} {j j0 : α}
    (h : a ++ j :: b = [j0]) : a = [] ∧ b = [] ∧ j = j0 := by
  cases a with
  | nil =>
    simp only [List.nil_append, List.cons.injEq] at h
    exact ⟨rfl, h.2, h.1⟩
  | cons x xs =>
    simp only [List.cons_append, List.cons.injEq] at h
    have := h.2
    simp at this

theorem results_of_prints {p : List Event} (h : AllPrints p) :
    p.filterMap Event.result? = [] := by
  induction p with
  | nil => rfl
  | cons e rest ih =>
    have he := h e (by simp)
    have hr : AllPrints rest := fun x hx => h x (by simp [hx])
    cases e with
    | print m => simpa [List.filterMap_cons, Event.result?] using ih hr
    | call id d => simp [Event.isPrint] at he
    | result id => simp [Event.isPrint] at he

theorem calls_of_prints {p : List Event} (h : AllPrints p) :
    p.filterMap Event.call? = [] := by
  induction p with
  | nil => rfl
  | cons e rest ih =>
    have he := h e (by simp)
    have hr : AllPrints rest := fun x hx => h x (by simp [hx])
    cases e with
    | print m => simpa [List.filterMap_cons, Event.call?] using ih hr
    | call id d => simp [Event.isPrint] at he
    | result id => simp [Event.isPrint] at he

theorem results_before_call (p1 p2 : List Event) (j : String) (dry : Bool)
    (h1 : AllPrints p1) (h2 : AllPrints p2) :
    (p1 ++ Event.call j dry :: (p2 ++ [Event.result j])).filterMap Event.result? = [j] ∧
    (p1 ++ Event.call j dry :: (p2 ++ [Event.result j])).filterMap Event.call?
      = [(j, dry)] := by
  simp [List.filterMap_append, List.filterMap_cons, results_of_prints h1, results_of_prints h2,
    calls_of_prints h1, calls_of_prints h2, Event.result?, Event.call?]

theorem results_after_call (p2 : List Event) (j : String) (h2 : AllPrints p2) :
    (p2 ++ [Event.result j]).filterMap Event.result? = [j] ∧
    (p2 ++ [Event.result j]).filterMap Event.call? = [] := by
  simp [List.filterMap_append, List.filterMap_cons, results_of_prints h2,
    calls_of_prints h2, Event.result?, Event.call?]

theorem Ok_shape {dry : Bool} {w : Worker} (h : w.Ok dry) :
    (w.todo = [] ∧ w.results = [] ∧ w.calls = []) ∨
    ∃ j, w.results = [j] ∧ (w.calls = [(j, dry)] ∨ w.calls = []) := by
  rcases h with h | ⟨j, p1, p2, h1, h2, h | h⟩
  · exact Or.inl ⟨h, by simp [Worker.results, h], by simp [Worker.calls, h]⟩
  · refine Or.inr ⟨j, ?_, Or.inl ?_⟩
    · rw [Worker.results, h]; exact (results_before_call p1 p2 j dry h1 h2).1
    · rw [Worker.calls, h]; exact (results_before_call p1 p2 j dry h1 h2).2
  · refine Or.inr ⟨j, ?_, Or.inr ?_⟩
    · rw [Worker.results, h]; exact (results_after_call p2 j h2).1
    · rw [Worker.calls, h]; exact (results_after_call p2 j h2).2

theorem Ok_quiet {dry : Bool} {w : Worker} (h : w.Ok dry) (hr : w.results = []) :
    w.todo = [] ∧ w.calls = [] := by
  rcases Ok_shape h with ⟨h1, _, h3⟩ | ⟨j, hj, _⟩
  · exact ⟨h1, h3⟩
  · rw [hr] at hj
    simp at hj

theorem Ok_waiting (dry : Bool) : (Worker.running []).Ok dry := Or.inl rfl

theorem Ok_exited (dry : Bool) : Worker.exited.Ok dry := Or.inl rfl

theorem Ok_print {dry : Bool} {msg : String} {todo : List Event}
    (h : (Worker.running (Event.print msg :: todo)).Ok dry) :
    (Worker.running todo).Ok dry ∧
    (Worker.running todo).results = (Worker.running (Event.print msg :: todo)).results ∧
    (Worker.running todo).calls = (Worker.running (Event.print msg :: todo)).calls := by
  refine ⟨?_, by simp [Worker.results, Worker.todo, Event.result?],
    by simp [Worker.calls, Worker.todo, Event.call?]⟩
  rcases h with h | ⟨j, p1, p2, h1, h2, h | h⟩
  · simp [Worker.todo] at h
  · cases p1 with
    | nil => simp [Worker.todo] at h
    | cons e p1 =>
      simp only [Worker.todo, List.cons_append, List.cons.injEq] at h
      exact Or.inr ⟨j, p1, p2, fun x hx => h1 x (by simp [hx]), h2, Or.inl h.2⟩
  · cases p2 with
    | nil => simp [Worker.todo] at h
    | cons e p2 =>
      simp only [Worker.todo, List.cons_append, List.cons.injEq] at h
      exact Or.inr ⟨j, [], p2, fun x hx => by simp at hx, fun x hx => h2 x (by simp [hx]),
        Or.inr h.2⟩

theorem Ok_call {dry : Bool} {id : String} {d : Bool} {todo : List Event}
    (h : (Worker.running (Event.call id d :: todo)).Ok dry) :
    d = dry ∧ (Worker.running todo).Ok dry ∧
    (Worker.running (Event.call id d :: todo)).results = [id] ∧
    (Worker.running (Event.call id d :: todo)).calls = [(id, dry)] ∧
    (Worker.running todo).results = [id] ∧ (Worker.running todo).calls = [] := by
  rcases h with h | ⟨j, p1, p2, h1, h2, h | h⟩
  · simp [Worker.todo] at h
  · cases p1 with
    | nil =>
      simp only [Worker.todo, List.nil_append, List.cons.injEq, Event.call.injEq] at h
      obtain ⟨⟨hid, hd⟩, ht⟩ := h
      subst hid hd ht
      have r1 := results_before_call [] p2 id d (fun x hx => by simp at hx) h2
      have r2 := results_after_call p2 id h2
      exact ⟨rfl, Or.inr ⟨id, [], p2, fun x hx => by simp at hx, h2, Or.inr rfl⟩,
        r1.1, r1.2, r2.1, r2.2⟩
    | cons e p1 =>
      simp only [Worker.todo, List.cons_append, List.cons.injEq] at h
      have := h1 e (by simp)
      rw [← h.1] at this
      simp [Event.isPrint] at this
  · cases p2 with
    | nil => simp [Worker.todo] at h
    | cons e p2 =>
      simp only [Worker.todo, List.cons_append, List.cons.injEq] at h
      have := h2 e (by simp)
      rw [← h.1] at this
      simp [Event.isPrint] at this

theorem Ok_result {dry : Bool} {id : String} {todo : List Event}
    (h : (Worker.running (Event.result id :: todo)).Ok dry) :
    todo = [] ∧ (Worker.running (Event.result id :: todo)).results = [id] ∧
    (Worker.running (Event.result id :: todo)).calls = [] := by
  rcases h with h | ⟨j, p1, p2, h1, h2, h | h⟩
  · simp [Worker.todo] at h
  · cases p1 with
    | nil => simp [Worker.todo] at h
    | cons e p1 =>
      simp only [Worker.todo, List.cons_append, List.cons.injEq] at h
      have := h1 e (by simp)
      rw [← h.1] at this
      simp [Event.isPrint] at this
  · cases p2 with
    | nil =>
      simp only [Worker.todo, List.nil_append, List.cons.injEq] at h
      rw [h.2]
      exact ⟨rfl, by simp [Worker.results, Worker.todo, Event.result?],
        by simp [Worker.calls, Worker.todo, Event.call?]⟩
    | cons e p2 =>
      simp only [Worker.todo, List.cons_append, List.cons.injEq] at h
      have := h2 e (by simp)
      rw [← h.1] at this
      simp [Event.isPrint] at this

theorem Ok_take (P : Program) (hW : OneCallOneResult P) (id : Int) (j : String)
    (svc : Nat → String → Bool → Option String) :
    (Worker.running (P.WorkerPool id [j] svc P.DryRun)).Ok P.DryRun ∧
    (Worker.running (P.WorkerPool id [j] svc P.DryRun)).results = [j] ∧
    (Worker.running (P.WorkerPool id [j] svc P.DryRun)).calls = [(j, P.DryRun)] ∧
    (P.WorkerPool id [j] svc P.DryRun).length ≤ 4 := by
  obtain ⟨p1, p2, h1, h2, heq, hlen⟩ := hW id j svc
  have r := results_before_call p1 p2 j P.DryRun h1 h2
  refine ⟨Or.inr ⟨j, p1, p2, h1, h2, Or.inl heq⟩, ?_, ?_, hlen⟩
  · rw [Worker.results, Worker.todo, heq]; exact r.1
  · rw [Worker.calls, Worker.todo, heq]; exact r.2

theorem pendingResults_split (pre post : List Worker) (w : Worker) :
    pendingResults (pre ++ w :: post)
      = pendingResults pre ++ (w.results ++ pendingResults post) := by
  simp [pendingResults, List.flatMap_append, List.flatMap_cons]

theorem pendingCalls_split (pre post : List Worker) (w : Worker) :
    pendingCalls (pre ++ w :: post)
      = pendingCalls pre ++ (w.calls ++ pendingCalls post) := by
  simp [pendingCalls, List.flatMap_append, List.flatMap_cons]

theorem quiet_of_no_results {dry : Bool} {ws : List Worker} (hok : ∀ w ∈ ws, w.Ok dry)
    (h : pendingResults ws = []) : pendingCalls ws = [] ∧ ∀ w ∈ ws, w.todo = [] := by
  induction ws with
  | nil => exact ⟨rfl, fun w hw => by simp at hw⟩
  | cons w rest ih =>
    have hsplit : pendingResults (w :: rest) = w.results ++ pendingResults rest :=
      pendingResults_split [] rest w
    rw [hsplit] at h
    obtain ⟨hw, hrest⟩ := List.append_eq_nil.1 h
    obtain ⟨ht, hc⟩ := Ok_quiet (hok w (by simp)) hw
    obtain ⟨ih1, ih2⟩ := ih (fun x hx => hok x (by simp [hx])) hrest
    constructor
    · have hcs : pendingCalls (w :: rest) = w.calls ++ pendingCalls rest :=
        pendingCalls_split [] rest w
      rw [hcs, hc, ih1]
      rfl
    · intro x hx
      rcases List.mem_cons.1 hx with hx | hx
      · rw [hx]; exact ht
      · exact ih2 x hx

end Pool

/-! ## The invariant of the pool -/

namespace Pool

theorem pendingResults_nil : pendingResults [] = [] := rfl

theorem pendingCalls_nil : pendingCalls [] = [] := rfl

theorem pendingResults_append (a b : List Worker) :
    pendingResults (a ++ b) = pendingResults a ++ pendingResults b := by
  simp [pendingResults, List.flatMap_append]

theorem pendingCalls_append (a b : List Worker) :
    pendingCalls (a ++ b) = pendingCalls a ++ pendingCalls b := by
  simp [pendingCalls, List.flatMap_append]

theorem pendingResults_cons (w : Worker) (ws : List Worker) :
    pendingResults (w :: ws) = w.results ++ pendingResults ws :=
  pendingResults_split [] ws w

theorem pendingCalls_cons (w : Worker) (ws : List Worker) :
    pendingCalls (w :: ws) = w.calls ++ pendingCalls ws :=
  pendingCalls_split [] ws w

theorem waiting_results : (Worker.running []).results = [] := rfl

theorem waiting_calls : (Worker.running []).calls = [] := rfl

theorem exited_results : Worker.exited.results = [] := rfl

theorem exited_calls : Worker.exited.calls = [] := rfl

theorem held_eq (s : State) : held s = s.senders ++ pendingResults s.workers := rfl

theorem ids_append (xs ys : List Decision) : ids (xs ++ ys) = ids xs ++ ids ys := by
  simp [ids]

theorem Ok_replace {dry : Bool} {pre post : List Worker} {w w2 : Worker}
    (h : ∀ x ∈ pre ++ w :: post, x.Ok dry) (hw2 : w2.Ok dry) :
    ∀ x ∈ pre ++ w2 :: post, x.Ok dry := by
  intro x hx
  rcases List.mem_append.1 hx with hx | hx
  · exact h x (List.mem_append_left _ hx)
  · rcases List.mem_cons.1 hx with hx | hx
    · rw [hx]; exact hw2
    · exact h x (List.mem_append_right _ (List.mem_cons_of_mem _ hx))

theorem noExit_replace {pre post : List Worker} {w : Worker} {todo : List Event}
    (h : Worker.exited ∉ pre ++ w :: post) :
    Worker.exited ∉ pre ++ Worker.running todo :: post := by
  intro hx
  rcases List.mem_append.1 hx with hx | hx
  · exact h (List.mem_append_left _ hx)
  · rcases List.mem_cons.1 hx with hx | hx
    · cases hx
    · exact h (List.mem_append_right _ (List.mem_cons_of_mem _ hx))

theorem length_replace (pre post : List Worker) (w w2 : Worker) :
    (pre ++ w2 :: post).length = (pre ++ w :: post).length := by
  simp

theorem Inv_init (P : Program) : Inv P init := by
  refine ⟨?_, ?_, ?_, ?_, ?_, ?_⟩
  · exact ⟨le_refl _, Or.inr rfl, rfl, rfl, rfl, rfl⟩
  · rfl
  · rfl
  · intro w hw
    simp [init] at hw
  · intro _ hw
    simp [init] at hw
  · intro h
    simp [init] at h

theorem recv_of_held (P : Program) (s : State) (inv : Inv P s) (h : held s ≠ []) :
    ∃ rest, s.main = .recv rest := by
  have m := inv.main
  cases hmain : s.main with
  | spawn w => rw [hmain] at m; exact absurd m.2.2.2.1 h
  | loop rest => rw [hmain] at m; exact absurd m.1 h
  | recv rest => exact ⟨rest, rfl⟩
  | closed => rw [hmain] at m; exact absurd m.1 h
  | returned => rw [hmain] at m; exact absurd m.1 h
  | panicked => rw [hmain] at m; exact absurd m.1 h

theorem quiet_of_held_nil (P : Program) (s : State) (inv : Inv P s) (h : held s = []) :
    s.senders = [] ∧ pendingResults s.workers = [] ∧ pendingCalls s.workers = [] ∧
      ∀ w ∈ s.workers, w.todo = [] := by
  rw [held_eq] at h
  obtain ⟨h1, h2⟩ := List.append_eq_nil.1 h
  obtain ⟨h3, h4⟩ := quiet_of_no_results inv.workers h2
  exact ⟨h1, h2, h3, h4⟩

theorem closes_append (P : Program) (s : State) (inv : Inv P s) (a : Action)
    (ha : a ≠ Action.close) :
    s.jobsClosed = true ∨ Action.close ∈ s.actions ++ [a] → P.closes = true := by
  intro h
  apply inv.closes
  rcases h with h | h
  · exact Or.inl h
  · rcases List.mem_append.1 h with h | h
    · exact Or.inr h
    · simp at h
      exact absurd h.symm ha

theorem Inv_spawn (P : Program) (s : State) (w : Int) (hm : s.main = .spawn w)
    (hw : w ≤ P.NoOfExecuter) (inv : Inv P s) :
    Inv P { s with main := .spawn (w + 1), workers := s.workers ++ [.running []],
                   actions := s.actions ++ [.start w] } := by
  have m := inv.main
  rw [hm] at m
  obtain ⟨h1, _, hlen, hheld, hc, hsub⟩ := m
  have hres : pendingResults (s.workers ++ [Worker.running []]) = pendingResults s.workers := by
    rw [pendingResults_append, pendingResults_cons, waiting_results, pendingResults_nil]
    simp
  have hcalls : pendingCalls (s.workers ++ [Worker.running []]) = pendingCalls s.workers := by
    rw [pendingCalls_append, pendingCalls_cons, waiting_calls, pendingCalls_nil]
    simp
  refine ⟨?_, ?_, ?_, ?_, ?_, closes_append P s inv _ (by simp)⟩
  · refine ⟨by omega, Or.inl (by omega), ?_, ?_, hc, hsub⟩
    · show (s.workers ++ [Worker.running []]).length = _
      rw [List.length_append, List.length_singleton, hlen]
      omega
    · show s.senders ++ pendingResults (s.workers ++ [Worker.running []]) = []
      rw [hres]
      exact hheld
  · show s.submitted = s.results ++ (s.senders ++ pendingResults (s.workers ++ [Worker.running []]))
    rw [hres]
    exact inv.submitted
  · show s.deletes ++ pendingCalls (s.workers ++ [Worker.running []]) ++ _ = _
    rw [hcalls]
    exact inv.deletes
  · intro x hx
    rcases List.mem_append.1 hx with hx | hx
    · exact inv.workers x hx
    · simp at hx
      rw [hx]
      exact Ok_waiting _
  · intro _ hx
    rcases List.mem_append.1 hx with hx | hx
    · exact inv.noExit hc hx
    · simp at hx

theorem Inv_spawned (P : Program) (s : State) (w : Int) (hm : s.main = .spawn w)
    (hw : ¬ w ≤ P.NoOfExecuter) (inv : Inv P s) :
    Inv P { s with main := .loop P.listing } := by
  have m := inv.main
  rw [hm] at m
  obtain ⟨h1, h2, hlen, hheld, hc, hsub⟩ := m
  refine ⟨?_, inv.submitted, inv.deletes, inv.workers, inv.noExit, inv.closes⟩
  refine ⟨hheld, hc, ?_, [], by simp, by simp, by simpa [ids] using hsub⟩
  show s.workers.length = _
  rw [hlen]
  omega

theorem Inv_skip (P : Program) (s : State) (rest : List Decision)
    (hm : s.main = .loop (.skip :: rest)) (inv : Inv P s) :
    Inv P { s with main := .loop rest } := by
  have m := inv.main
  rw [hm] at m
  obtain ⟨hheld, hc, hlen, done, hl, hp, hsub⟩ := m
  refine ⟨?_, inv.submitted, inv.deletes, inv.workers, inv.noExit, inv.closes⟩
  refine ⟨hheld, hc, hlen, done ++ [.skip], by simp [hl], ?_, ?_⟩
  · simp [hp]
  · show s.submitted = _
    rw [hsub, ids_append]
    simp [ids, Decision.id?]

theorem Inv_panic (P : Program) (s : State) (rest : List Decision)
    (hm : s.main = .loop (.panic :: rest)) (inv : Inv P s) :
    Inv P { s with main := .panicked } := by
  have m := inv.main
  rw [hm] at m
  obtain ⟨hheld, hc, hlen, done, hl, hp, hsub⟩ := m
  refine ⟨?_, inv.submitted, inv.deletes, inv.workers, inv.noExit, inv.closes⟩
  exact ⟨hheld, done, rest, hl, hp, hsub⟩

theorem Inv_submit (P : Program) (s : State) (id : String) (rest : List Decision)
    (hm : s.main = .loop (.submit id :: rest)) (inv : Inv P s) :
    Inv P { s with main := .recv rest, senders := s.senders ++ [id],
                   submitted := s.submitted ++ [id],
                   actions := s.actions ++ [.submit id] } := by
  have m := inv.main
  rw [hm] at m
  obtain ⟨hheld, hc, hlen, done, hl, hp, hsub⟩ := m
  obtain ⟨hs, hr, hcalls, _⟩ := quiet_of_held_nil P s inv hheld
  have hsub2 := inv.submitted
  rw [hheld, List.append_nil] at hsub2
  have hdel := inv.deletes
  rw [hcalls, hs] at hdel
  simp only [List.append_nil, List.map_nil] at hdel
  refine ⟨?_, ?_, ?_, inv.workers, inv.noExit, closes_append P s inv _ (by simp)⟩
  · refine ⟨⟨id, ?_⟩, hc, hlen, done ++ [.submit id], by simp [hl], ?_, ?_⟩
    · show (s.senders ++ [id]) ++ pendingResults s.workers = [id]
      rw [hs, hr]
      rfl
    · simp [hp]
    · show s.submitted ++ [id] = _
      rw [hsub, ids_append]
      simp [ids, Decision.id?]
  · show s.submitted ++ [id] = s.results ++ ((s.senders ++ [id]) ++ pendingResults s.workers)
    rw [hs, hr, hsub2]
    rfl
  · show s.deletes ++ pendingCalls s.workers ++ (s.senders ++ [id]).map (fun j => (j, P.DryRun))
      = (s.submitted ++ [id]).map (fun j => (j, P.DryRun))
    rw [hcalls, hs, hdel]
    simp

end Pool

namespace Pool

theorem Inv_take (P : Program) (hW : OneCallOneResult P) (s : State) (a b : List String)
    (j : String) (pre post : List Worker) (svc : Nat → String → Bool → Option String)
    (hs : s.senders = a ++ j :: b) (hw : s.workers = pre ++ .running [] :: post)
    (inv : Inv P s) :
    Inv P { s with senders := a ++ b,
                   workers := pre ++
                     .running (P.WorkerPool (pre.length + 1) [j] svc P.DryRun) :: post } := by
  obtain ⟨hok, hres, hcalls, _⟩ := Ok_take P hW (pre.length + 1) j svc
  have hheld : held s = a ++ j :: (b ++ (pendingResults pre ++ pendingResults post)) := by
    rw [held_eq, hs, hw, pendingResults_split, waiting_results]
    simp
  obtain ⟨rest, hm⟩ := recv_of_held P s inv (by rw [hheld]; simp)
  have m := inv.main
  rw [hm] at m
  obtain ⟨⟨j0, hj0⟩, hc, hlen, done, hl, hp, hsub⟩ := m
  rw [hheld] at hj0
  obtain ⟨ha, hb, hjj⟩ := append_cons_eq_singleton hj0
  obtain ⟨hb1, hb2⟩ := List.append_eq_nil.1 hb
  obtain ⟨hpre, hpost⟩ := List.append_eq_nil.1 hb2
  subst ha hb1 hjj
  have okw := inv.workers
  rw [hw] at okw
  have qpre := quiet_of_no_results (fun x hx => okw x (List.mem_append_left _ hx)) hpre
  have qpost := quiet_of_no_results
    (fun x hx => okw x (List.mem_append_right _ (List.mem_cons_of_mem _ hx))) hpost
  have hheld1 : held s = [j] := by rw [hheld]; simp [hpre, hpost]
  have hnewres : pendingResults
      (pre ++ Worker.running (P.WorkerPool (pre.length + 1) [j] svc P.DryRun) :: post) = [j] := by
    rw [pendingResults_split, hres, hpre, hpost]
    rfl
  have hnewcalls : pendingCalls
      (pre ++ Worker.running (P.WorkerPool (pre.length + 1) [j] svc P.DryRun) :: post)
      = [(j, P.DryRun)] := by
    rw [pendingCalls_split, hcalls, qpre.1, qpost.1]
    rfl
  have hdel := inv.deletes
  rw [hw, pendingCalls_split, waiting_calls, qpre.1, qpost.1, hs] at hdel
  refine ⟨?_, ?_, ?_, Ok_replace okw hok, ?_, inv.closes⟩
  · show MainInv P _ s.main
    rw [hm]
    refine ⟨⟨j, ?_⟩, hc, ?_, done, hl, hp, hsub⟩
    · show ([] ++ []) ++ pendingResults _ = [j]
      rw [hnewres]
      rfl
    · show (pre ++ Worker.running _ :: post).length = _
      rw [← hlen, hw]
      exact length_replace _ _ _ _
  · show s.submitted = s.results ++ (([] ++ []) ++ pendingResults _)
    rw [hnewres, inv.submitted, hheld1]
    rfl
  · show s.deletes ++ pendingCalls _ ++ ([] ++ []).map (fun j => (j, P.DryRun)) = _
    rw [hnewcalls, ← hdel]
    simp
  · intro hc2
    have := inv.noExit hc
    rw [hw] at this
    exact noExit_replace this

theorem Inv_print (P : Program) (s : State) (msg : String) (todo : List Event)
    (pre post : List Worker)
    (hw : s.workers = pre ++ .running (.print msg :: todo) :: post) (inv : Inv P s) :
    Inv P { s with workers := pre ++ .running todo :: post } := by
  have okw := inv.workers
  rw [hw] at okw
  obtain ⟨hok, hres, hcalls⟩ :=
    Ok_print (okw (Worker.running (Event.print msg :: todo)) (by simp))
  have hr : pendingResults (pre ++ Worker.running todo :: post) = pendingResults s.workers := by
    rw [hw, pendingResults_split, pendingResults_split, hres]
  have hcl : pendingCalls (pre ++ Worker.running todo :: post) = pendingCalls s.workers := by
    rw [hw, pendingCalls_split, pendingCalls_split, hcalls]
  have hheld : held { s with workers := pre ++ .running todo :: post } = held s := by
    show s.senders ++ pendingResults _ = s.senders ++ pendingResults s.workers
    rw [hr]
  have hlen : (pre ++ Worker.running todo :: post).length = s.workers.length := by
    rw [hw]
    exact length_replace _ _ _ _
  have m := inv.main
  refine ⟨?_, ?_, ?_, Ok_replace okw hok, ?_, inv.closes⟩
  · show MainInv P _ s.main
    cases hmain : s.main with
    | spawn w =>
      rw [hmain] at m
      exact ⟨m.1, m.2.1, hlen.trans m.2.2.1, hheld.trans m.2.2.2.1, m.2.2.2.2⟩
    | loop rest =>
      rw [hmain] at m
      exact ⟨hheld.trans m.1, m.2.1, hlen.trans m.2.2.1, m.2.2.2⟩
    | recv rest =>
      rw [hmain] at m
      obtain ⟨⟨j, hj⟩, m2⟩ := m
      exact ⟨⟨j, hheld.trans hj⟩, m2.1, hlen.trans m2.2.1, m2.2.2⟩
    | closed => rw [hmain] at m; exact ⟨hheld.trans m.1, m.2⟩
    | returned => rw [hmain] at m; exact ⟨hheld.trans m.1, m.2⟩
    | panicked => rw [hmain] at m; exact ⟨hheld.trans m.1, m.2⟩
  · show s.submitted = s.results ++ (s.senders ++ pendingResults _)
    rw [hr]
    exact inv.submitted
  · show s.deletes ++ pendingCalls _ ++ _ = _
    rw [hcl]
    exact inv.deletes
  · intro hc
    have := inv.noExit hc
    rw [hw] at this
    exact noExit_replace this

theorem Inv_call (P : Program) (s : State) (id : String) (d : Bool) (todo : List Event)
    (pre post : List Worker)
    (hw : s.workers = pre ++ .running (.call id d :: todo) :: post) (inv : Inv P s) :
    Inv P { s with workers := pre ++ .running todo :: post,
                   deletes := s.deletes ++ [(id, d)] } := by
  have okw := inv.workers
  rw [hw] at okw
  obtain ⟨hd, hok, hres0, hcalls0, hres, hcalls⟩ :=
    Ok_call (okw (Worker.running (Event.call id d :: todo)) (by simp))
  subst hd
  have hheld : held s = s.senders ++ (pendingResults pre ++ (id :: pendingResults post)) := by
    rw [held_eq, hw, pendingResults_split, hres0]
    rfl
  obtain ⟨rest, hm⟩ := recv_of_held P s inv (by rw [hheld]; simp)
  have m := inv.main
  rw [hm] at m
  obtain ⟨⟨j0, hj0⟩, hc, hlen, done, hl, hp, hsub⟩ := m
  rw [hheld, ← List.append_assoc] at hj0
  obtain ⟨ha, hpost, hjj⟩ := append_cons_eq_singleton hj0
  obtain ⟨hsend, hpre⟩ := List.append_eq_nil.1 ha
  subst hjj
  have qpre := quiet_of_no_results (fun x hx => okw x (List.mem_append_left _ hx)) hpre
  have qpost := quiet_of_no_results
    (fun x hx => okw x (List.mem_append_right _ (List.mem_cons_of_mem _ hx))) hpost
  have hr : pendingResults (pre ++ Worker.running todo :: post) = [id] := by
    rw [pendingResults_split, hres, hpre, hpost]
    rfl
  have hcl : pendingCalls (pre ++ Worker.running todo :: post) = [] := by
    rw [pendingCalls_split, hcalls, qpre.1, qpost.1]
    rfl
  have hheld1 : held s = [id] := by rw [hheld, hsend, hpre, hpost]; rfl
  have hdel := inv.deletes
  rw [hw, pendingCalls_split, hcalls0, qpre.1, qpost.1, hsend] at hdel
  refine ⟨?_, ?_, ?_, Ok_replace okw hok, ?_, inv.closes⟩
  · show MainInv P _ s.main
    rw [hm]
    refine ⟨⟨id, ?_⟩, hc, ?_, done, hl, hp, hsub⟩
    · show s.senders ++ pendingResults _ = [id]
      rw [hr, hsend]
      rfl
    · show (pre ++ Worker.running todo :: post).length = _
      rw [← hlen, hw]
      exact length_replace _ _ _ _
  · show s.submitted = s.results ++ (s.senders ++ pendingResults _)
    rw [hr, hsend, inv.submitted, hheld1]
    rfl
  · show s.deletes ++ [(id, P.DryRun)] ++ pendingCalls _ ++ s.senders.map _ = _
    rw [hcl, hsend, ← hdel]
    simp
  · intro hc2
    have := inv.noExit hc
    rw [hw] at this
    exact noExit_replace this

theorem Inv_result (P : Program) (s : State) (id : String) (todo : List Event)
    (rest : List Decision) (pre post : List Worker) (hm : s.main = .recv rest)
    (hw : s.workers = pre ++ .running (.result id :: todo) :: post) (inv : Inv P s) :
    Inv P { s with main := .loop rest, workers := pre ++ .running todo :: post,
                   results := s.results ++ [id],
                   actions := s.actions ++ [.receive id] } := by
  have okw := inv.workers
  rw [hw] at okw
  obtain ⟨htodo, hres0, hcalls0⟩ :=
    Ok_result (okw (Worker.running (Event.result id :: todo)) (by simp))
  subst htodo
  have hheld : held s = s.senders ++ (pendingResults pre ++ (id :: pendingResults post)) := by
    rw [held_eq, hw, pendingResults_split, hres0]
    rfl
  have m := inv.main
  rw [hm] at m
  obtain ⟨⟨j0, hj0⟩, hc, hlen, done, hl, hp, hsub⟩ := m
  rw [hheld, ← List.append_assoc] at hj0
  obtain ⟨ha, hpost, hjj⟩ := append_cons_eq_singleton hj0
  obtain ⟨hsend, hpre⟩ := List.append_eq_nil.1 ha
  subst hjj
  have qpre := quiet_of_no_results (fun x hx => okw x (List.mem_append_left _ hx)) hpre
  have qpost := quiet_of_no_results
    (fun x hx => okw x (List.mem_append_right _ (List.mem_cons_of_mem _ hx))) hpost
  have hr : pendingResults (pre ++ Worker.running [] :: post) = [] := by
    rw [pendingResults_split, waiting_results, hpre, hpost]
    rfl
  have hcl : pendingCalls (pre ++ Worker.running [] :: post) = [] := by
    rw [pendingCalls_split, waiting_calls, qpre.1, qpost.1]
    rfl
  have hheld1 : held s = [id] := by rw [hheld, hsend, hpre, hpost]; rfl
  have hdel := inv.deletes
  rw [hw, pendingCalls_split, hcalls0, qpre.1, qpost.1, hsend] at hdel
  refine ⟨?_, ?_, ?_, Ok_replace okw (Ok_waiting _), ?_, closes_append P s inv _ (by simp)⟩
  · refine ⟨?_, hc, ?_, done, hl, hp, hsub⟩
    · show s.senders ++ pendingResults _ = []
      rw [hr, hsend]
      rfl
    · show (pre ++ Worker.running [] :: post).length = _
      rw [← hlen, hw]
      exact length_replace _ _ _ _
  · show s.submitted = (s.results ++ [id]) ++ (s.senders ++ pendingResults _)
    rw [hr, hsend, inv.submitted, hheld1]
    simp
  · show s.deletes ++ pendingCalls _ ++ s.senders.map _ = _
    rw [hcl, hsend, ← hdel]
    simp
  · intro hc2
    have := inv.noExit hc
    rw [hw] at this
    exact noExit_replace this

theorem Inv_close (P : Program) (s : State) (hm : s.main = .loop []) (hp : P.closes = true)
    (inv : Inv P s) :
    Inv P { s with main := .closed, jobsClosed := true,
                   actions := s.actions ++ [.close] } := by
  have m := inv.main
  rw [hm] at m
  obtain ⟨hheld, hc, hlen, done, hl, hpan, hsub⟩ := m
  rw [List.append_nil] at hl
  refine ⟨?_, inv.submitted, inv.deletes, inv.workers, ?_, fun _ => hp⟩
  · exact ⟨hheld, rfl, hp, by rw [hl]; exact hpan, by rw [hl]; exact hsub⟩
  · intro h
    simp at h

theorem Inv_ret (P : Program) (s : State)
    (hm : s.main = .closed ∨ (s.main = .loop [] ∧ P.closes = false)) (inv : Inv P s) :
    Inv P { s with main := .returned } := by
  have m := inv.main
  refine ⟨?_, inv.submitted, inv.deletes, inv.workers, inv.noExit, inv.closes⟩
  rcases hm with hm | ⟨hm, hp⟩
  · rw [hm] at m
    obtain ⟨hheld, hc, hcl, hpan, hsub⟩ := m
    exact ⟨hheld, by rw [hcl]; exact hc, hpan, hsub⟩
  · rw [hm] at m
    obtain ⟨hheld, hc, hlen, done, hl, hpan, hsub⟩ := m
    rw [List.append_nil] at hl
    exact ⟨hheld, by rw [hp]; exact hc, by rw [hl]; exact hpan, by rw [hl]; exact hsub⟩

theorem closed_of_jobsClosed (P : Program) (s : State) (inv : Inv P s)
    (hm : s.main.alive = true) (hc : s.jobsClosed = true) : s.main = .closed := by
  have m := inv.main
  cases hmain : s.main with
  | spawn w => rw [hmain] at m; rw [m.2.2.2.2.1] at hc; exact absurd hc (by simp)
  | loop rest => rw [hmain] at m; rw [m.2.1] at hc; exact absurd hc (by simp)
  | recv rest => rw [hmain] at m; rw [m.2.1] at hc; exact absurd hc (by simp)
  | closed => rfl
  | returned => rw [hmain] at hm; simp [Main.alive] at hm
  | panicked => rw [hmain] at hm; simp [Main.alive] at hm

theorem Inv_exit (P : Program) (s : State) (pre post : List Worker)
    (hc : s.jobsClosed = true) (hw : s.workers = pre ++ .running [] :: post) (inv : Inv P s) :
    Inv P { s with workers := pre ++ .exited :: post } := by
  have okw := inv.workers
  rw [hw] at okw
  have hr : pendingResults (pre ++ Worker.exited :: post) = pendingResults s.workers := by
    rw [hw, pendingResults_split, pendingResults_split, exited_results, waiting_results]
  have hcl : pendingCalls (pre ++ Worker.exited :: post) = pendingCalls s.workers := by
    rw [hw, pendingCalls_split, pendingCalls_split, exited_calls, waiting_calls]
  have hheld : held { s with workers := pre ++ .exited :: post } = held s := by
    show s.senders ++ pendingResults _ = s.senders ++ pendingResults s.workers
    rw [hr]
  have m := inv.main
  refine ⟨?_, ?_, ?_, Ok_replace okw (Ok_exited _), ?_, inv.closes⟩
  · show MainInv P _ s.main
    cases hmain : s.main with
    | spawn w => rw [hmain] at m; rw [m.2.2.2.2.1] at hc; exact absurd hc (by simp)
    | loop rest => rw [hmain] at m; rw [m.2.1] at hc; exact absurd hc (by simp)
    | recv rest => rw [hmain] at m; rw [m.2.1] at hc; exact absurd hc (by simp)
    | closed => rw [hmain] at m; exact ⟨hheld.trans m.1, m.2⟩
    | returned => rw [hmain] at m; exact ⟨hheld.trans m.1, m.2⟩
    | panicked => rw [hmain] at m; exact ⟨hheld.trans m.1, m.2⟩
  · show s.submitted = s.results ++ (s.senders ++ pendingResults _)
    rw [hr]
    exact inv.submitted
  · show s.deletes ++ pendingCalls _ ++ _ = _
    rw [hcl]
    exact inv.deletes
  · intro h
    rw [hc] at h
    simp at h

theorem Inv_step (P : Program) (hW : OneCallOneResult P) (s s2 : State) (inv : Inv P s)
    (h : Step P s s2) : Inv P s2 := by
  cases h with
  | spawn w hm hw => exact Inv_spawn P s w hm hw inv
  | spawned w hm hw => exact Inv_spawned P s w hm hw inv
  | skip rest hm => exact Inv_skip P s rest hm inv
  | panic rest hm => exact Inv_panic P s rest hm inv
  | submit id rest hm => exact Inv_submit P s id rest hm inv
  | take a b j pre post svc hm hc hs hw => exact Inv_take P hW s a b j pre post svc hs hw inv
  | print msg todo pre post hm hw => exact Inv_print P s msg todo pre post hw inv
  | call id d todo pre post hm hw => exact Inv_call P s id d todo pre post hw inv
  | result id todo rest pre post hm hw => exact Inv_result P s id todo rest pre post hm hw inv
  | close hm hp => exact Inv_close P s hm hp inv
  | ret hm => exact Inv_ret P s hm inv
  | exit pre post hm hc hw => exact Inv_exit P s pre post hc hw inv
  | sendClosed hm hc hs =>
    have hcl := closed_of_jobsClosed P s inv hm hc
    have m := inv.main
    rw [hcl] at m
    have hheld := m.1
    rw [held_eq] at hheld
    exact absurd (List.append_eq_nil.1 hheld).1 hs

theorem Inv_of_reachable (P : Program) (hW : OneCallOneResult P) (s : State)
    (h : Reachable P s) : Inv P s := by
  induction h with
  | init => exact Inv_init P
  | step s s2 _ hs ih => exact Inv_step P hW s s2 ih hs

end Pool

/-! ## The two `WorkerPool` functions make one request and publish one result -/

namespace DeleteAmi
open Pool

theorem ami_oneCallOneResult (yamlconfig : YAMLConfig) (t : Int) (Images : List Image) :
    OneCallOneResult (main yamlconfig t Images) := by
  intro id j svc
  show ∃ p1 p2, AllPrints p1 ∧ AllPrints p2 ∧
    WorkerPool id [j] svc yamlconfig.Dryrun
      = p1 ++ Event.call j yamlconfig.Dryrun :: (p2 ++ [Event.result j]) ∧
    (WorkerPool id [j] svc yamlconfig.Dryrun).length ≤ 4
  cases hsvc : svc 0 j yamlconfig.Dryrun with
  | none =>
    refine ⟨[Event.print ("Goroutine id. " ++ toString id ++ " deregistering ami id. " ++ j)],
      [], ?_, ?_, ?_, ?_⟩
    · intro e he; simp at he; rw [he]; rfl
    · intro e he; simp at he
    · simp [WorkerPool, DeregisterAmi, hsvc]
    · simp [WorkerPool, DeregisterAmi, hsvc]
  | some err =>
    refine ⟨[Event.print ("Goroutine id. " ++ toString id ++ " deregistering ami id. " ++ j)],
      [Event.print err], ?_, ?_, ?_, ?_⟩
    · intro e he; simp at he; rw [he]; rfl
    · intro e he; simp at he; rw [he]; rfl
    · simp [WorkerPool, DeregisterAmi, hsvc]
    · simp [WorkerPool, DeregisterAmi, hsvc]

end DeleteAmi

namespace DeleteVolumes
open Pool

theorem volumes_oneCallOneResult (yamlconfig : YAMLConfig) (t : Int) (Volumes : List Volume) :
    OneCallOneResult (main yamlconfig t Volumes) := by
  intro id j svc
  show ∃ p1 p2, AllPrints p1 ∧ AllPrints p2 ∧
    WorkerPool id [j] svc yamlconfig.Dryrun
      = p1 ++ Event.call j yamlconfig.Dryrun :: (p2 ++ [Event.result j]) ∧
    (WorkerPool id [j] svc yamlconfig.Dryrun).length ≤ 4
  cases hsvc : svc 0 j yamlconfig.Dryrun with
  | none =>
    refine ⟨[Event.print ("Goroutine id " ++ toString id ++ " removing snapshot id. " ++ j)],
      [], ?_, ?_, ?_, ?_⟩
    · intro e he; simp at he; rw [he]; rfl
    · intro e he; simp at he
    · simp [WorkerPool, DeleteUnusedVolumes, hsvc]
    · simp [WorkerPool, DeleteUnusedVolumes, hsvc]
  | some err =>
    refine ⟨[Event.print ("Goroutine id " ++ toString id ++ " removing snapshot id. " ++ j)],
      [Event.print err], ?_, ?_, ?_, ?_⟩
    · intro e he; simp at he; rw [he]; rfl
    · intro e he; simp at he; rw [he]; rfl
    · simp [WorkerPool, DeleteUnusedVolumes, hsvc]
    · simp [WorkerPool, DeleteUnusedVolumes, hsvc]

end DeleteVolumes

/-! ## What the invariant gives -/

namespace Pool

theorem held_length_le_one (P : Program) (s : State) (inv : Inv P s) :
    (held s).length ≤ 1 := by
  have m := inv.main
  cases hmain : s.main with
  | spawn w => rw [hmain] at m; rw [m.2.2.2.1]; simp
  | loop rest => rw [hmain] at m; rw [m.1]; simp
  | recv rest =>
    rw [hmain] at m
    obtain ⟨⟨j, hj⟩, _⟩ := m
    rw [hj]; simp
  | closed => rw [hmain] at m; rw [m.1]; simp
  | returned => rw [hmain] at m; rw [m.1]; simp
  | panicked => rw [hmain] at m; rw [m.1]; simp

theorem submitted_length (P : Program) (s : State) (inv : Inv P s) :
    s.submitted.length = s.results.length + (held s).length := by
  rw [inv.submitted, List.length_append]

theorem outstanding_eq_held (P : Program) (s : State) (inv : Inv P s) :
    outstanding s = (held s).length := by
  unfold outstanding
  rw [submitted_length P s inv]
  omega

theorem busy_le_results {dry : Bool} (ws : List Worker) (hok : ∀ w ∈ ws, w.Ok dry) :
    (ws.filter (fun w => !w.todo.isEmpty)).length ≤ (pendingResults ws).length := by
  induction ws with
  | nil => simp
  | cons w rest ih =>
    have ih2 := ih (fun x hx => hok x (by simp [hx]))
    rw [pendingResults_cons, List.length_append, List.filter_cons]
    rcases Ok_shape (hok w (by simp)) with ⟨h1, _, _⟩ | ⟨j, hj, _⟩
    · simp only [h1, List.isEmpty_nil, Bool.not_true, Bool.false_eq_true, if_false]
      omega
    · rw [hj]
      split
      · simp only [List.length_cons, List.length_nil]
        omega
      · simp only [List.length_cons, List.length_nil]
        omega

theorem inFlight_le_held (P : Program) (s : State) (inv : Inv P s) :
    inFlight s ≤ (held s).length := by
  have := busy_le_results s.workers inv.workers
  unfold inFlight
  rw [held_eq, List.length_append]
  omega

theorem outstanding_le_one (P : Program) (hW : OneCallOneResult P) (s : State)
    (h : Reachable P s) :
    s.submitted.length = s.results.length + outstanding s ∧ outstanding s ≤ 1 ∧
      inFlight s ≤ outstanding s := by
  have inv := Inv_of_reachable P hW s h
  rw [outstanding_eq_held P s inv]
  exact ⟨submitted_length P s inv, held_length_le_one P s inv, inFlight_le_held P s inv⟩

/-- C8. In every state of every run of either program the jobs submitted whose
result `main` has not yet taken number at most one (the results taken plus
those outstanding are the jobs submitted), and the workers holding a job are at
most that many; so with `Concurrency >= 1` the deletions in flight never exceed
`Concurrency`. -/
theorem at_most_one_outstanding (acfg : DeleteAmi.YAMLConfig) (vcfg : DeleteVolumes.YAMLConfig)
    (t : Int) (Images : List DeleteAmi.Image) (Volumes : List DeleteVolumes.Volume) :
    (∀ s, Reachable (DeleteAmi.main acfg t Images) s →
      s.submitted.length = s.results.length + outstanding s ∧ outstanding s ≤ 1 ∧
      inFlight s ≤ 1 ∧
      (1 ≤ acfg.No_of_executer → (inFlight s : Int) ≤ acfg.No_of_executer)) ∧
    (∀ s, Reachable (DeleteVolumes.main vcfg t Volumes) s →
      s.submitted.length = s.results.length + outstanding s ∧ outstanding s ≤ 1 ∧
      inFlight s ≤ 1 ∧
      (1 ≤ vcfg.NoOfExecuter → (inFlight s : Int) ≤ vcfg.NoOfExecuter)) := by
  constructor
  · intro s h
    obtain ⟨h1, h2, h3⟩ :=
      outstanding_le_one _ (DeleteAmi.ami_oneCallOneResult acfg t Images) s h
    refine ⟨h1, h2, by omega, ?_⟩
    intro hk
    omega
  · intro s h
    obtain ⟨h1, h2, h3⟩ :=
      outstanding_le_one _ (DeleteVolumes.volumes_oneCallOneResult vcfg t Volumes) s h
    refine ⟨h1, h2, by omega, ?_⟩
    intro hk
    omega

end Pool

/-! ## Termination and absence of deadlock -/

namespace Pool

theorem weight_sum_split (pre post : List Worker) (w : Worker) :
    ((pre ++ w :: post).map Worker.weight).sum
      = (pre.map Worker.weight).sum + w.weight + (post.map Worker.weight).sum := by
  simp [List.map_append, List.sum_append, List.sum_cons, Nat.add_assoc]

theorem alive_weight_pos (P : Program) (m : Main) (h : m.alive = true) : 0 < m.weight P := by
  cases m <;> simp [Main.alive, Main.weight] at h ⊢

theorem measure_decreases (P : Program) (hW : OneCallOneResult P) (s s2 : State)
    (h : Step P s s2) : measure P s2 < measure P s := by
  cases h with
  | spawn w hm hw =>
    simp only [measure, hm, Main.weight, List.map_append, List.sum_append, List.map_cons,
      List.map_nil, List.sum_cons, List.sum_nil, Worker.weight, List.length_nil]
    omega
  | spawned w hm hw =>
    simp only [measure, hm, Main.weight]
    omega
  | skip rest hm =>
    simp only [measure, hm, Main.weight, List.length_cons]
    omega
  | panic rest hm =>
    simp only [measure, hm, Main.weight, List.length_cons]
    omega
  | submit id rest hm =>
    simp only [measure, hm, Main.weight, List.length_cons, List.length_append,
      List.length_nil]
    omega
  | take a b j pre post svc hm hc hs hw =>
    have hlen := (Ok_take P hW (pre.length + 1) j svc).2.2.2
    simp only [measure, hs, hw, weight_sum_split, Worker.weight, List.length_append,
      List.length_cons, List.length_nil]
    omega
  | print msg todo pre post hm hw =>
    simp only [measure, hw, weight_sum_split, Worker.weight, List.length_cons]
    omega
  | call id d todo pre post hm hw =>
    simp only [measure, hw, weight_sum_split, Worker.weight, List.length_cons]
    omega
  | result id todo rest pre post hm hw =>
    simp only [measure, hm, hw, Main.weight, weight_sum_split, Worker.weight,
      List.length_cons]
    omega
  | close hm hp =>
    simp only [measure, hm, Main.weight, List.length_nil]
    omega
  | ret hm =>
    rcases hm with hm | ⟨hm, _⟩
    · simp only [measure, hm, Main.weight]
      omega
    · simp only [measure, hm, Main.weight]
      omega
  | exit pre post hm hc hw =>
    simp only [measure, hw, weight_sum_split, Worker.weight, List.length_nil]
    omega
  | sendClosed hm hc hs =>
    have hpos := alive_weight_pos P s.main hm
    have hz : Main.weight P Main.panicked = 0 := rfl
    show Main.weight P Main.panicked + 5 * s.senders.length
        + (s.workers.map Worker.weight).sum
      < Main.weight P s.main + 5 * s.senders.length + (s.workers.map Worker.weight).sum
    omega

theorem split_of_pending {ws : List Worker} (h : pendingResults ws ≠ []) :
    ∃ pre e todo post, ws = pre ++ Worker.running (e :: todo) :: post := by
  induction ws with
  | nil => exact absurd rfl h
  | cons w rest ih =>
    cases w with
    | exited =>
      rw [pendingResults_cons, exited_results, List.nil_append] at h
      obtain ⟨pre, e, todo, post, hr⟩ := ih h
      exact ⟨Worker.exited :: pre, e, todo, post, by rw [hr]; rfl⟩
    | running todo =>
      cases todo with
      | nil =>
        rw [pendingResults_cons, waiting_results, List.nil_append] at h
        obtain ⟨pre, e, todo, post, hr⟩ := ih h
        exact ⟨Worker.running [] :: pre, e, todo, post, by rw [hr]; rfl⟩
      | cons e todo => exact ⟨[], e, todo, rest, rfl⟩

theorem progress (P : Program) (hM : 1 ≤ P.NoOfExecuter) (s : State) (inv : Inv P s)
    (ha : s.main.alive = true) : ∃ s2, Step P s s2 := by
  have m := inv.main
  cases hmain : s.main with
  | spawn w =>
    by_cases hw : w ≤ P.NoOfExecuter
    · exact ⟨_, Step.spawn s w hmain hw⟩
    · exact ⟨_, Step.spawned s w hmain hw⟩
  | loop rest =>
    cases rest with
    | nil =>
      by_cases hp : P.closes = true
      · exact ⟨_, Step.close s hmain hp⟩
      · exact ⟨_, Step.ret s (Or.inr ⟨hmain, by simpa using hp⟩)⟩
    | cons d rest =>
      cases d with
      | skip => exact ⟨_, Step.skip s rest hmain⟩
      | submit id => exact ⟨_, Step.submit s id rest hmain⟩
      | panic => exact ⟨_, Step.panic s rest hmain⟩
  | recv rest =>
    rw [hmain] at m
    obtain ⟨⟨j, hj⟩, hc, hlen, _⟩ := m
    rw [held_eq] at hj
    cases hsend : s.senders with
    | nil =>
      rw [hsend, List.nil_append] at hj
      obtain ⟨pre, e, todo, post, hsplit⟩ :=
        @split_of_pending s.workers (by rw [hj]; simp)
      cases e with
      | print msg => exact ⟨_, Step.print s msg todo pre post ha hsplit⟩
      | call id d => exact ⟨_, Step.call s id d todo pre post ha hsplit⟩
      | result id => exact ⟨_, Step.result s id todo rest pre post hmain hsplit⟩
    | cons j2 b =>
      rw [hsend] at hj
      simp only [List.cons_append, List.cons.injEq] at hj
      obtain ⟨hb, hjobs⟩ := List.append_eq_nil.1 hj.2
      have hquiet := (quiet_of_no_results inv.workers hjobs).2
      cases hws : s.workers with
      | nil =>
        rw [hws] at hlen
        simp at hlen
        omega
      | cons w post =>
        have hw : w = Worker.running [] := by
          have hmem : w ∈ s.workers := by rw [hws]; simp
          cases w with
          | exited => exact absurd hmem (inv.noExit hc)
          | running todo =>
            have := hquiet _ hmem
            simp only [Worker.todo] at this
            rw [this]
        subst hw
        exact ⟨_, Step.take s [] b j2 [] post (fun _ _ _ => none) ha hc
          (by rw [hsend]; rfl) (by rw [hws]; rfl)⟩
  | closed => exact ⟨_, Step.ret s (Or.inl hmain)⟩
  | returned => rw [hmain] at ha; simp [Main.alive] at ha
  | panicked => rw [hmain] at ha; simp [Main.alive] at ha

theorem results_eq_submitted_of_not_alive (P : Program) (s : State) (inv : Inv P s)
    (ha : s.main.alive = false) : s.results = s.submitted := by
  have m := inv.main
  have hs := inv.submitted
  cases hmain : s.main with
  | spawn w => rw [hmain] at ha; simp [Main.alive] at ha
  | loop rest => rw [hmain] at ha; simp [Main.alive] at ha
  | recv rest => rw [hmain] at ha; simp [Main.alive] at ha
  | closed => rw [hmain] at ha; simp [Main.alive] at ha
  | returned => rw [hmain] at m; rw [hs, m.1, List.append_nil]
  | panicked => rw [hmain] at m; rw [hs, m.1, List.append_nil]

theorem closed_when_returned (P : Program) (s : State) (inv : Inv P s)
    (hm : s.main = .returned) : s.jobsClosed = P.closes := by
  have m := inv.main
  rw [hm] at m
  exact m.2.1

theorem held_nil_of_jobsClosed (P : Program) (s : State) (inv : Inv P s)
    (hc : s.jobsClosed = true) : held s = [] := by
  have m := inv.main
  cases hmain : s.main with
  | spawn w => rw [hmain] at m; exact m.2.2.2.1
  | loop rest => rw [hmain] at m; exact m.1
  | recv rest => rw [hmain] at m; rw [m.2.1] at hc; exact absurd hc (by simp)
  | closed => rw [hmain] at m; exact m.1
  | returned => rw [hmain] at m; exact m.1
  | panicked => rw [hmain] at m; exact m.1

theorem waiting_of_held_nil (P : Program) (s : State) (inv : Inv P s) (h : held s = []) :
    s.senders = [] ∧ ∀ w ∈ s.workers, w = Worker.running [] ∨ w = Worker.exited := by
  obtain ⟨hs, _, _, hq⟩ := quiet_of_held_nil P s inv h
  refine ⟨hs, ?_⟩
  intro w hw
  cases w with
  | exited => exact Or.inr rfl
  | running todo =>
    have := hq _ hw
    simp only [Worker.todo] at this
    rw [this]
    exact Or.inl rfl

/-- C6. With at least one worker, whatever is listed, no run of
`delete-ami-parallel` deadlocks and every run ends: each step lowers a bound on
the steps left, a step is possible while `main` is running, and when it no
longer runs the results taken are exactly the ids submitted, one for each.
When `main` has returned `jobs` is closed, and once `jobs` is closed no
goroutine is blocked sending on it and every worker has returned or stands at
the closed channel, from where it returns. -/
theorem ami_completes_without_deadlock (yamlconfig : DeleteAmi.YAMLConfig) (t : Int)
    (Images : List DeleteAmi.Image) (hM : 1 ≤ yamlconfig.No_of_executer) :
    CompletesWithoutDeadlock (DeleteAmi.main yamlconfig t Images) := by
  have hW := DeleteAmi.ami_oneCallOneResult yamlconfig t Images
  refine ⟨measure_decreases _ hW, ?_, ?_, ?_, ?_⟩
  · intro s hs ha
    exact progress _ hM s (Inv_of_reachable _ hW s hs) ha
  · intro s hs
    exact ⟨(outstanding_le_one _ hW s hs).1,
      results_eq_submitted_of_not_alive _ s (Inv_of_reachable _ hW s hs)⟩
  · intro s hs hm
    exact closed_when_returned _ s (Inv_of_reachable _ hW s hs) hm
  · intro s hs hc
    have inv := Inv_of_reachable _ hW s hs
    exact waiting_of_held_nil _ s inv (held_nil_of_jobsClosed _ s inv hc)

end Pool

/-! ## The delete requests of a whole run -/

namespace Pool

theorem exists_final (P : Program) (hW : OneCallOneResult P) (hM : 1 ≤ P.NoOfExecuter) :
    ∀ n s, measure P s ≤ n → Reachable P s → ∃ s2, Reachable P s2 ∧ s2.main.alive = false := by
  intro n
  induction n with
  | zero =>
    intro s hn hs
    cases ha : s.main.alive with
    | false => exact ⟨s, hs, ha⟩
    | true =>
      obtain ⟨s2, hstep⟩ := progress P hM s (Inv_of_reachable P hW s hs) ha
      have := measure_decreases P hW s s2 hstep
      omega
  | succ n ih =>
    intro s hn hs
    cases ha : s.main.alive with
    | false => exact ⟨s, hs, ha⟩
    | true =>
      obtain ⟨s2, hstep⟩ := progress P hM s (Inv_of_reachable P hW s hs) ha
      have := measure_decreases P hW s s2 hstep
      exact ih s2 (by omega) (Reachable.step s s2 hs hstep)

theorem exists_returned (P : Program) (hW : OneCallOneResult P) (hM : 1 ≤ P.NoOfExecuter)
    (hp : Decision.panic ∉ P.listing) : ∃ s, Reachable P s ∧ s.main = .returned := by
  obtain ⟨s, hs, ha⟩ := exists_final P hW hM _ init (Nat.le_refl _) Reachable.init
  refine ⟨s, hs, ?_⟩
  have m := (Inv_of_reachable P hW s hs).main
  cases hmain : s.main with
  | spawn w => rw [hmain] at ha; simp [Main.alive] at ha
  | loop rest => rw [hmain] at ha; simp [Main.alive] at ha
  | recv rest => rw [hmain] at ha; simp [Main.alive] at ha
  | closed => rw [hmain] at ha; simp [Main.alive] at ha
  | returned => rfl
  | panicked =>
    rw [hmain] at m
    obtain ⟨_, done, rest, hl, _⟩ := m
    exact absurd (by rw [hl]; simp) hp

theorem beforePanic_append (done rest : List Decision) (h : Decision.panic ∉ done) :
    beforePanic (done ++ rest) = done ++ beforePanic rest := by
  induction done with
  | nil => rfl
  | cons d ds ih =>
    have hd : d ≠ Decision.panic := fun e => h (by simp [e])
    have hds : Decision.panic ∉ ds := fun e => h (by simp [e])
    cases d with
    | panic => exact absurd rfl hd
    | skip => simp [beforePanic, ih hds]
    | submit id => simp [beforePanic, ih hds]

theorem beforePanic_of_no_panic (l : List Decision) (h : Decision.panic ∉ l) :
    beforePanic l = l := by
  have := beforePanic_append l [] h
  simpa [beforePanic] using this

theorem ids_beforePanic_subset (l : List Decision) :
    ∀ j ∈ ids (beforePanic l), j ∈ ids l := by
  induction l with
  | nil => intro j hj; exact hj
  | cons d ds ih =>
    intro j hj
    cases d with
    | panic => simp [beforePanic, ids] at hj
    | skip =>
      simp only [beforePanic, ids, List.filterMap_cons, Decision.id?] at hj ⊢
      exact ih j hj
    | submit id =>
      simp only [beforePanic, ids, List.filterMap_cons, Decision.id?, List.mem_cons] at hj ⊢
      rcases hj with hj | hj
      · exact Or.inl hj
      · exact Or.inr (ih j hj)

theorem submitted_before_panic (P : Program) (s : State) (inv : Inv P s) :
    ∀ j ∈ s.submitted, j ∈ ids (beforePanic P.listing) := by
  have m := inv.main
  intro j hj
  cases hmain : s.main with
  | spawn w => rw [hmain] at m; rw [m.2.2.2.2.2] at hj; simp at hj
  | loop rest =>
    rw [hmain] at m
    obtain ⟨_, _, _, done, hl, hp, hsub⟩ := m
    rw [hl, beforePanic_append done rest hp, ids_append]
    exact List.mem_append_left _ (hsub ▸ hj)
  | recv rest =>
    rw [hmain] at m
    obtain ⟨_, _, _, done, hl, hp, hsub⟩ := m
    rw [hl, beforePanic_append done rest hp, ids_append]
    exact List.mem_append_left _ (hsub ▸ hj)
  | closed =>
    rw [hmain] at m
    rw [beforePanic_of_no_panic _ m.2.2.2.1]
    exact m.2.2.2.2 ▸ hj
  | returned =>
    rw [hmain] at m
    rw [beforePanic_of_no_panic _ m.2.2.1]
    exact m.2.2.2 ▸ hj
  | panicked =>
    rw [hmain] at m
    obtain ⟨_, done, rest, hl, hp, hsub⟩ := m
    rw [hl, beforePanic_append done _ hp, ids_append]
    exact List.mem_append_left _ (hsub ▸ hj)

theorem deletes_sound (P : Program) (s : State) (inv : Inv P s) :
    ∀ d ∈ s.deletes, d.2 = P.DryRun ∧ d.1 ∈ ids (beforePanic P.listing) := by
  intro d hd
  have hmem : d ∈ s.submitted.map (fun j => (j, P.DryRun)) := by
    rw [← inv.deletes]
    exact List.mem_append_left _ (List.mem_append_left _ hd)
  obtain ⟨j, hj, rfl⟩ := List.mem_map.1 hmem
  exact ⟨rfl, submitted_before_panic P s inv j hj⟩

theorem deletes_complete (P : Program) (s : State) (inv : Inv P s)
    (hm : s.main = .returned) :
    s.deletes = (ids P.listing).map (fun id => (id, P.DryRun)) ∧
      s.results = ids P.listing := by
  have m := inv.main
  rw [hm] at m
  obtain ⟨hheld, _, _, hsub⟩ := m
  obtain ⟨hs, _, hcalls, _⟩ := quiet_of_held_nil P s inv hheld
  have hres : s.results = ids P.listing := by
    have := inv.submitted
    rw [hheld, List.append_nil] at this
    rw [← this, hsub]
  refine ⟨?_, hres⟩
  have hdel := inv.deletes
  rw [hcalls, hs, hsub] at hdel
  simpa using hdel

theorem deletesExactlyListing (P : Program) (hW : OneCallOneResult P)
    (hM : 1 ≤ P.NoOfExecuter) (hp : Decision.panic ∉ P.listing) :
    DeletesExactlyListing P := by
  refine ⟨exists_returned P hW hM hp, ?_⟩
  intro s hs
  have inv := Inv_of_reachable P hW s hs
  refine ⟨?_, deletes_complete P s inv⟩
  intro d hd
  obtain ⟨h1, h2⟩ := deletes_sound P s inv d hd
  exact ⟨h1, ids_beforePanic_subset _ _ h2⟩

theorem mem_ids_map {α : Type} (f : α → Decision) (xs : List α) (id : String) :
    id ∈ ids (xs.map f) ↔ ∃ x ∈ xs, f x = Decision.submit id := by
  unfold ids
  rw [List.mem_filterMap]
  constructor
  · rintro ⟨d, hd, hid⟩
    obtain ⟨x, hx, rfl⟩ := List.mem_map.1 hd
    refine ⟨x, hx, ?_⟩
    cases hfx : f x with
    | skip => rw [hfx] at hid; simp [Decision.id?] at hid
    | panic => rw [hfx] at hid; simp [Decision.id?] at hid
    | submit id2 =>
      rw [hfx] at hid
      simp only [Decision.id?, Option.some.injEq] at hid
      rw [hid]
  · rintro ⟨x, hx, hfx⟩
    exact ⟨f x, List.mem_map.2 ⟨x, hx, rfl⟩, by rw [hfx]; rfl⟩

end Pool

namespace DeleteVolumes
open Pool

theorem loopBody_ne_panic (yamlconfig : YAMLConfig) (t : Int) (volume : Volume) :
    loopBody yamlconfig t volume ≠ Decision.panic := by
  unfold loopBody
  simp only
  split <;> simp

end DeleteVolumes

namespace Pool

/-- C5 (amended). With at least one worker in each program and a listing on
which the AMI loop body does not panic: every run can complete; at any time
every delete request made, built by `DeregisterAmi` or `DeleteUnusedVolumes`,
carries the configured `Dryrun` and the id of a resource the loop body submits;
when `main` has returned, the requests made and the results taken are exactly
one for each resource the loop body submits, in the order listed.  What the
loop body submits does not depend on `Dryrun`, so the runs with `Dryrun` true
and false make requests for the same ids. -/
theorem same_deletes_whatever_dryrun (acfg : DeleteAmi.YAMLConfig)
    (vcfg : DeleteVolumes.YAMLConfig) (t : Int) (Images : List DeleteAmi.Image)
    (Volumes : List DeleteVolumes.Volume)
    (ha : 1 ≤ acfg.No_of_executer) (hv : 1 ≤ vcfg.NoOfExecuter)
    (hp : ∀ image ∈ Images, DeleteAmi.loopBody acfg t image ≠ Decision.panic) :
    DeletesExactlyListing (DeleteAmi.main acfg t Images) ∧
    DeletesExactlyListing (DeleteVolumes.main vcfg t Volumes) ∧
    (∀ id, id ∈ ids (DeleteAmi.main acfg t Images).listing ↔
      ∃ image ∈ Images, DeleteAmi.loopBody acfg t image = Decision.submit id) ∧
    (∀ id, id ∈ ids (DeleteVolumes.main vcfg t Volumes).listing ↔
      ∃ volume ∈ Volumes, DeleteVolumes.loopBody vcfg t volume = Decision.submit id) ∧
    (∀ b, (DeleteAmi.main { acfg with Dryrun := b } t Images).listing
      = (DeleteAmi.main acfg t Images).listing) ∧
    (∀ b, (DeleteVolumes.main { vcfg with Dryrun := b } t Volumes).listing
      = (DeleteVolumes.main vcfg t Volumes).listing) := by
  refine ⟨?_, ?_, ?_, ?_, ?_, ?_⟩
  · apply deletesExactlyListing _ (DeleteAmi.ami_oneCallOneResult acfg t Images) ha
    intro hmem
    obtain ⟨image, himg, hbody⟩ := List.mem_map.1 hmem
    exact hp image himg hbody
  · apply deletesExactlyListing _ (DeleteVolumes.volumes_oneCallOneResult vcfg t Volumes) hv
    intro hmem
    obtain ⟨volume, _, hbody⟩ := List.mem_map.1 hmem
    exact DeleteVolumes.loopBody_ne_panic vcfg t volume hbody
  · intro id
    exact mem_ids_map _ Images id
  · intro id
    exact mem_ids_map _ Volumes id
  · intro b
    rfl
  · intro b
    rfl

end Pool

/-! ## The fixed scheduler takes steps of the semantics -/

namespace Pool

theorem startFirst_split {pass : Nat → List Event} {k : Nat} {ws ws2 : List Worker}
    (h : startFirst pass k ws = some ws2) :
    ∃ pre post, ws = pre ++ Worker.running [] :: post ∧
      ws2 = pre ++ Worker.running (pass (k + pre.length)) :: post := by
  induction ws generalizing k ws2 with
  | nil => simp [startFirst] at h
  | cons w rest ih =>
    unfold startFirst at h
    by_cases hw : w = Worker.running []
    · rw [if_pos hw] at h
      cases h
      exact ⟨[], rest, by rw [hw]; rfl, rfl⟩
    · rw [if_neg hw] at h
      cases hr : startFirst pass (k + 1) rest with
      | none => rw [hr] at h; simp at h
      | some r =>
        rw [hr] at h
        simp only [Option.map_some', Option.some.injEq] at h
        obtain ⟨pre, post, h1, h2⟩ := ih hr
        refine ⟨w :: pre, post, by rw [h1]; rfl, ?_⟩
        rw [← h, h2]
        have : k + 1 + pre.length = k + (w :: pre).length := by
          simp only [List.length_cons]
          omega
        rw [this]
        rfl

theorem advanceFirst_split {ws ws2 : List Worker} {e : Event}
    (h : advanceFirst ws = some (e, ws2)) :
    ∃ pre todo post, ws = pre ++ Worker.running (e :: todo) :: post ∧
      ws2 = pre ++ Worker.running todo :: post := by
  induction ws generalizing ws2 with
  | nil => simp [advanceFirst] at h
  | cons w rest ih =>
    cases w with
    | exited =>
      simp only [advanceFirst] at h
      cases hr : advanceFirst rest with
      | none => rw [hr] at h; simp at h
      | some r =>
        rw [hr] at h
        simp only [Option.map_some', Option.some.injEq, Prod.mk.injEq] at h
        obtain ⟨pre, todo, post, h1, h2⟩ := @ih r.2 (by rw [hr, ← h.1])
        exact ⟨Worker.exited :: pre, todo, post, by rw [h1]; rfl, by rw [← h.2, h2]; rfl⟩
    | running todo =>
      cases todo with
      | nil =>
        simp only [advanceFirst] at h
        cases hr : advanceFirst rest with
        | none => rw [hr] at h; simp at h
        | some r =>
          rw [hr] at h
          simp only [Option.map_some', Option.some.injEq, Prod.mk.injEq] at h
          obtain ⟨pre, todo, post, h1, h2⟩ := @ih r.2 (by rw [hr, ← h.1])
          exact ⟨Worker.running [] :: pre, todo, post, by rw [h1]; rfl,
            by rw [← h.2, h2]; rfl⟩
      | cons e2 todo =>
        simp only [advanceFirst, Option.some.injEq, Prod.mk.injEq] at h
        obtain ⟨he, hws⟩ := h
        subst he hws
        exact ⟨[], todo, rest, rfl, rfl⟩

theorem stepFirst_sound (P : Program) (svc : Nat → String → Bool → Option String)
    (s s2 : State) (h : stepFirst P svc s = some s2) : Step P s s2 := by
  unfold stepFirst at h
  cases hmain : s.main with
  | spawn w =>
    rw [hmain] at h
    simp only at h
    by_cases hw : w ≤ P.NoOfExecuter
    · rw [if_pos hw] at h
      cases h
      exact Step.spawn s w hmain hw
    · rw [if_neg hw] at h
      cases h
      exact Step.spawned s w hmain hw
  | loop rest =>
    rw [hmain] at h
    cases rest with
    | nil =>
      simp only at h
      by_cases hp : P.closes = true
      · rw [if_pos hp] at h
        cases h
        exact Step.close s hmain hp
      · rw [if_neg hp] at h
        cases h
        exact Step.ret s (Or.inr ⟨hmain, by simpa using hp⟩)
    | cons d rest =>
      cases d with
      | skip => simp only at h; cases h; exact Step.skip s rest hmain
      | panic => simp only at h; cases h; exact Step.panic s rest hmain
      | submit id => simp only at h; cases h; exact Step.submit s id rest hmain
  | recv rest =>
    rw [hmain] at h
    simp only at h
    have halive : s.main.alive = true := by rw [hmain]; rfl
    cases hsend : s.senders with
    | cons j b =>
      rw [hsend] at h
      simp only at h
      cases hc : s.jobsClosed with
      | true => rw [hc] at h; simp at h
      | false =>
        rw [hc] at h
        simp only [Bool.false_eq_true, if_false] at h
        cases hsw : startFirst (fun k => P.WorkerPool ((k : Int) + 1) [j] svc P.DryRun) 0
            s.workers with
        | none => rw [hsw] at h; simp at h
        | some ws =>
          rw [hsw] at h
          simp only [Option.map_some', Option.some.injEq] at h
          obtain ⟨pre, post, h1, h2⟩ := startFirst_split hsw
          rw [← h, h2]
          have st := Step.take (P := P) s [] b j pre post svc halive hc
            (by rw [hsend]; rfl) h1
          convert st using 1
          simp [hmain, hc]
    | nil =>
      rw [hsend] at h
      simp only at h
      cases hadv : advanceFirst s.workers with
      | none => rw [hadv] at h; simp at h
      | some r =>
        obtain ⟨e, ws⟩ := r
        rw [hadv] at h
        obtain ⟨pre, todo, post, h1, h2⟩ := advanceFirst_split hadv
        cases e with
        | print msg =>
          simp only [Option.some.injEq] at h
          rw [← h, h2]
          have st := Step.print (P := P) s msg todo pre post halive h1
          convert st using 1
          simp [hmain, hsend]
        | call id d =>
          simp only [Option.some.injEq] at h
          rw [← h, h2]
          have st := Step.call (P := P) s id d todo pre post halive h1
          convert st using 1
          simp [hmain, hsend]
        | result id =>
          simp only [Option.some.injEq] at h
          rw [← h, h2]
          have st := Step.result (P := P) s id todo rest pre post hmain h1
          convert st using 1
          simp [hsend]
  | closed =>
    rw [hmain] at h
    simp only at h
    cases h
    exact Step.ret s (Or.inl hmain)
  | returned => rw [hmain] at h; simp at h
  | panicked => rw [hmain] at h; simp at h

theorem runFirst_reachable (P : Program) (svc : Nat → String → Bool → Option String)
    (fuel : Nat) (s : State) (h : Reachable P s) : Reachable P (runFirst P svc fuel s) := by
  induction fuel generalizing s with
  | zero => exact h
  | succ n ih =>
    unfold runFirst
    cases hstep : stepFirst P svc s with
    | none => exact h
    | some s2 => exact ih s2 (Reachable.step s s2 h (stepFirst_sound P svc s s2 hstep))

end Pool

/-! ## The driver's actions on the pool -/

namespace Pool

theorem starts_succ (n : Nat) : starts (n + 1) = starts n ++ [Action.start ((n : Int) + 1)] := by
  simp [starts, List.range_succ]

theorem actionsShape_of_reachable (P : Program) (hW : OneCallOneResult P) (s : State)
    (h : Reachable P s) :
    ActionsShape P s.actions s.main := by
  induction h with
  | init =>
    show [] = starts (1 - 1 : Int).toNat
    rfl
  | step s s2 hr hs ih =>
    have inv := Inv_of_reachable P hW s hr
    have m := inv.main
    cases hs with
    | spawn w hm hw =>
      rw [hm] at ih m
      obtain ⟨h1, _⟩ := m
      show s.actions ++ [Action.start w] = starts (w + 1 - 1).toNat
      have e1 : (w + 1 - 1).toNat = (w - 1).toNat + 1 := by omega
      have e2 : (((w - 1).toNat : Nat) : Int) + 1 = w := by omega
      rw [e1, starts_succ, e2]
      exact congrArg (fun l => l ++ [Action.start w]) ih
    | spawned w hm hw =>
      rw [hm] at ih m
      obtain ⟨h1, h2, _⟩ := m
      have e : (w - 1).toNat = P.NoOfExecuter.toNat := by omega
      refine ⟨[], ?_, by simp⟩
      show s.actions = _
      rw [List.append_nil, ← e]
      exact ih
    | skip rest hm => rw [hm] at ih; exact ih
    | panic rest hm => rw [hm] at ih; exact ih
    | submit id rest hm =>
      rw [hm] at ih
      obtain ⟨mid, hmid, hjob⟩ := ih
      refine ⟨mid ++ [Action.submit id], ?_, ?_⟩
      · show s.actions ++ [Action.submit id] = _
        rw [hmid, List.append_assoc]
      · intro a ha
        rcases List.mem_append.1 ha with ha | ha
        · exact hjob a ha
        · simp at ha; rw [ha]; rfl
    | take a b j pre post svc hm hc hss hw => exact ih
    | print msg todo pre post hm hw => exact ih
    | call id d todo pre post hm hw => exact ih
    | result j todo rest pre post hm hw =>
      rw [hm] at ih
      obtain ⟨mid, hmid, hjob⟩ := ih
      refine ⟨mid ++ [Action.receive j], ?_, ?_⟩
      · show s.actions ++ [Action.receive j] = _
        rw [hmid, List.append_assoc]
      · intro a ha
        rcases List.mem_append.1 ha with ha | ha
        · exact hjob a ha
        · simp at ha; rw [ha]; rfl
    | close hm hp =>
      rw [hm] at ih
      obtain ⟨mid, hmid, hjob⟩ := ih
      refine ⟨mid, ?_, hjob⟩
      show s.actions ++ [Action.close] = _
      rw [hmid]
    | ret hm =>
      rcases hm with hm | ⟨hm, hp⟩
      · rw [hm] at ih m
        obtain ⟨mid, hmid, hjob⟩ := ih
        refine ⟨mid, ?_, hjob⟩
        show s.actions = _
        rw [hmid, m.2.2.1]
        rfl
      · rw [hm] at ih
        obtain ⟨mid, hmid, hjob⟩ := ih
        refine ⟨mid, ?_, hjob⟩
        show s.actions = _
        rw [hmid, hp]
        simp
    | exit pre post hm hc hw => exact ih
    | sendClosed hm hc hss =>
      have hcl := closed_of_jobsClosed P s inv hm hc
      rw [hcl] at m
      have hheld := m.1
      rw [held_eq] at hheld
      exact absurd (List.append_eq_nil.1 hheld).1 hss

/-- The driver's actions in a completed run of `delete-ami-parallel`: the worker
starts, then submissions and receipts only, then one close of `jobs` as the last
action. -/
theorem ami_actions_when_returned (yamlconfig : DeleteAmi.YAMLConfig) (t : Int)
    (Images : List DeleteAmi.Image) (s : State)
    (h : Reachable (DeleteAmi.main yamlconfig t Images) s) (hm : s.main = .returned) :
    ∃ mid, s.actions = starts yamlconfig.No_of_executer.toNat ++ mid ++ [Action.close] ∧
      ∀ a ∈ mid, a.isJob = true := by
  have := actionsShape_of_reachable _ (DeleteAmi.ami_oneCallOneResult yamlconfig t Images) s h
  rw [hm] at this
  exact this

/-- The driver's actions in a completed run of
`delete-unused-volumes-parallel`: the worker starts, then submissions and
receipts only, and no close. -/
theorem volumes_actions_when_returned (yamlconfig : DeleteVolumes.YAMLConfig) (t : Int)
    (Volumes : List DeleteVolumes.Volume) (s : State)
    (h : Reachable (DeleteVolumes.main yamlconfig t Volumes) s) (hm : s.main = .returned) :
    ∃ mid, s.actions = starts yamlconfig.NoOfExecuter.toNat ++ mid ∧
      ∀ a ∈ mid, a.isJob = true := by
  have := actionsShape_of_reachable _
    (DeleteVolumes.volumes_oneCallOneResult yamlconfig t Volumes) s h
  rw [hm] at this
  obtain ⟨mid, hmid, hjob⟩ := this
  refine ⟨mid, ?_, hjob⟩
  rw [hmid]
  show _ ++ (if false = true then [Action.close] else []) = _
  simp
  rfl

end Pool

/-! ## The example runs -/

namespace Examples
open Pool

theorem amiRun_listing :
    amiRun.listing = [Decision.submit "ami-0a1", Decision.submit "ami-0b2"] := by
  decide

theorem volRun_listing : volRun.listing = [Decision.submit "vol-1", Decision.skip] := by
  decide

theorem panicRun_listing :
    panicRun.listing
      = [Decision.submit "ami-ok", Decision.panic, Decision.submit "ami-after"] := by
  decide

theorem amiRun_worker : OneCallOneResult amiRun :=
  DeleteAmi.ami_oneCallOneResult twoWorkers startTime oldImages

theorem volRun_worker : OneCallOneResult volRun :=
  DeleteVolumes.volumes_oneCallOneResult volConfig startTime someVolumes

theorem panicRun_worker : OneCallOneResult panicRun :=
  DeleteAmi.ami_oneCallOneResult plainConfig startTime imagesWithNoT

theorem workersStarted_reachable : Reachable amiRun workersStarted := by
  have h1 : Reachable amiRun
      { Pool.init with main := .spawn 2, workers := [.running []], actions := [.start 1] } :=
    Reachable.step _ _ Reachable.init (Step.spawn Pool.init 1 rfl (by decide))
  have h2 : Reachable amiRun
      { Pool.init with main := .spawn 3, workers := [.running [], .running []],
                       actions := [.start 1, .start 2] } :=
    Reachable.step _ _ h1 (Step.spawn _ 2 rfl (by decide))
  have h3 := Reachable.step _ _ h2 (Step.spawned _ 3 rfl (by decide))
  rw [amiRun_listing] at h3
  exact h3

theorem oneSubmitted_reachable : Reachable amiRun oneSubmitted :=
  Reachable.step _ _ workersStarted_reachable
    (Step.submit workersStarted "ami-0a1" [.submit "ami-0b2"] rfl)

theorem amiFinal_eq : runFirst amiRun dryRunAnswers 17 Pool.init = amiFinal := by
  decide

theorem volFinal_eq : runFirst volRun dryRunAnswers 10 Pool.init = volFinal := by
  decide

theorem panicFinal_eq : runFirst panicRun dryRunAnswers 9 Pool.init = panicFinal := by
  decide

theorem amiFinal_reachable : Reachable amiRun amiFinal := by
  rw [← amiFinal_eq]
  exact runFirst_reachable amiRun dryRunAnswers 17 Pool.init Reachable.init

theorem volFinal_reachable : Reachable volRun volFinal := by
  rw [← volFinal_eq]
  exact runFirst_reachable volRun dryRunAnswers 10 Pool.init Reachable.init

theorem panicFinal_reachable : Reachable panicRun panicFinal := by
  rw [← panicFinal_eq]
  exact runFirst_reachable panicRun dryRunAnswers 9 Pool.init Reachable.init

end Examples

/-! ## The theorems at the example runs -/

namespace Pool

/-- C7 (what the code does). With two workers and two eligible images, no state
of any run has two jobs submitted and not yet completed: `main` waits for the
result of each job before it looks at the next image, so the second worker
never has a job while the first has one. -/
theorem two_workers_never_two_outstanding :
    Examples.amiRun.NoOfExecuter = 2 ∧
    ids Examples.amiRun.listing = ["ami-0a1", "ami-0b2"] ∧
    ¬ ∃ s, Reachable Examples.amiRun s ∧ outstanding s = 2 := by
  refine ⟨rfl, by rw [Examples.amiRun_listing]; rfl, ?_⟩
  rintro ⟨s, hs, h2⟩
  have := (outstanding_le_one _ Examples.amiRun_worker s hs).2.1
  omega

theorem same_deletes_whatever_dryrun_witness :
    (1 : Int) ≤ Examples.twoWorkers.No_of_executer ∧
    (1 : Int) ≤ Examples.volConfig.NoOfExecuter ∧
    Reachable Examples.amiRun Examples.amiFinal ∧
    Examples.amiFinal.deletes = [("ami-0a1", true), ("ami-0b2", true)] ∧
    Examples.amiFinal.deletes
      = (ids Examples.amiRun.listing).map (fun id => (id, Examples.amiRun.DryRun)) ∧
    Examples.amiFinal.results = ids Examples.amiRun.listing ∧
    Examples.volFinal.deletes
      = (ids Examples.volRun.listing).map (fun id => (id, Examples.volRun.DryRun)) :=
  have h := same_deletes_whatever_dryrun Examples.twoWorkers Examples.volConfig
    Examples.startTime Examples.oldImages Examples.someVolumes (by decide) (by decide)
    (by decide)
  ⟨by decide, by decide, Examples.amiFinal_reachable, rfl,
    ((h.1.2 Examples.amiFinal Examples.amiFinal_reachable).2 rfl).1,
    ((h.1.2 Examples.amiFinal Examples.amiFinal_reachable).2 rfl).2,
    ((h.2.1.2 Examples.volFinal Examples.volFinal_reachable).2 rfl).1⟩

/-- C5 (as stated, refuted). With two workers and three listed images, the
second without a `T` in its `CreationDate`, `main` panics at the second image:
the run ends with the one request for the first image, and the third image,
which the loop body would submit, gets a request in no state of any run. -/
theorem no_request_after_a_panic :
    (1 : Int) ≤ Examples.plainConfig.No_of_executer ∧
    (∃ image ∈ Examples.imagesWithNoT,
      DeleteAmi.loopBody Examples.plainConfig Examples.startTime image
        = Decision.submit "ami-after") ∧
    Reachable Examples.panicRun Examples.panicFinal ∧
    Examples.panicFinal.main = Main.panicked ∧
    Examples.panicFinal.deletes = [("ami-ok", false)] ∧
    ¬ ∃ s, Reachable Examples.panicRun s ∧ ∃ d ∈ s.deletes, d.1 = "ami-after" := by
  refine ⟨by decide, ?_, Examples.panicFinal_reachable, rfl, rfl, ?_⟩
  · exact (mem_ids_map _ _ _).1 (by rw [show (Examples.imagesWithNoT.map
      (DeleteAmi.loopBody Examples.plainConfig Examples.startTime))
        = Examples.panicRun.listing from rfl, Examples.panicRun_listing]; decide)
  · rintro ⟨s, hs, d, hd, hid⟩
    have h := (deletes_sound _ s (Inv_of_reachable _ Examples.panicRun_worker s hs) d hd).2
    rw [Examples.panicRun_listing, hid] at h
    revert h
    decide

theorem ami_completes_without_deadlock_witness :
    (1 : Int) ≤ Examples.twoWorkers.No_of_executer ∧
    (∃ s2, Step Examples.amiRun Examples.oneSubmitted s2) ∧
    Examples.oneSubmitted.submitted.length
      = Examples.oneSubmitted.results.length + outstanding Examples.oneSubmitted ∧
    Examples.amiFinal.results = Examples.amiFinal.submitted ∧
    Examples.amiFinal.jobsClosed = true ∧
    Examples.amiFinal.senders = [] :=
  have h := ami_completes_without_deadlock Examples.twoWorkers Examples.startTime
    Examples.oldImages (by decide)
  ⟨by decide, h.2.1 Examples.oneSubmitted Examples.oneSubmitted_reachable rfl,
    (h.2.2.1 Examples.oneSubmitted Examples.oneSubmitted_reachable).1,
    (h.2.2.1 Examples.amiFinal Examples.amiFinal_reachable).2 rfl,
    h.2.2.2.1 Examples.amiFinal Examples.amiFinal_reachable rfl,
    (h.2.2.2.2 Examples.amiFinal Examples.amiFinal_reachable rfl).1⟩

/-- C9 (what the code does). The run of `delete-unused-volumes-parallel` on two
listed volumes with two workers completes in a state where `jobs` is open and
the driver's last action is the receipt of a result, and in no state of any of
its runs is `jobs` closed or a close among the driver's actions: `main` returns
right after the loop. -/
theorem volumes_run_never_closes_jobs :
    Examples.volRun.listing = [Decision.submit "vol-1", Decision.skip] ∧
    Reachable Examples.volRun Examples.volFinal ∧
    Examples.volFinal.main = Main.returned ∧
    Examples.volFinal.jobsClosed = false ∧
    Examples.volFinal.actions
      = [Action.start 1, Action.start 2, Action.submit "vol-1", Action.receive "vol-1"] ∧
    ¬ ∃ s, Reachable Examples.volRun s ∧
        (s.jobsClosed = true ∨ Action.close ∈ s.actions) := by
  refine ⟨Examples.volRun_listing, Examples.volFinal_reachable, rfl, rfl, rfl, ?_⟩
  rintro ⟨s, hs, hc⟩
  have := (Inv_of_reachable _ Examples.volRun_worker s hs).closes hc
  exact absurd this (by decide)

end Pool
